import Mathlib

/-!
# jffs2extract: a shallow embedding of `src/jffs2extract.c`

Memory (the image, the output buffers) is a function from byte offsets to
values; a C pointer into the image is the offset from its start `o`, a
possibly-NULL pointer is an `Option Nat`.  Unsigned 32-bit arithmetic is
written with an explicit `% 2 ^ 32`.  Pointers and `size_t`/`uLongf` values are
64 bits wide (LP64) and never wrap at the sizes considered, so they are plain
natural numbers.
-/

namespace Jffs2

/-! ## Memory and little-endian fields -/

/-- Byte-addressed memory: the image `o`, a buffer `b`, a payload stream. -/
abbrev Mem := Nat → Nat

/-- Memory holding the bytes of a list, zero elsewhere. -/
def Mem.ofList (l : List Nat) : Mem := fun i => l.getD i 0

/-- One `unsigned char` read. -/
def rd8 (o : Mem) (p : Nat) : Nat := o p % 256

/-- The macro `je16_to_cpu` on a field stored at `p` (little-endian image). -/
def je16_to_cpu (o : Mem) (p : Nat) : Nat := rd8 o p + 256 * rd8 o (p + 1)

/-- The macro `je32_to_cpu` on a field stored at `p` (little-endian image). -/
def je32_to_cpu (o : Mem) (p : Nat) : Nat :=
  rd8 o p + 256 * rd8 o (p + 1) + 65536 * rd8 o (p + 2) + 16777216 * rd8 o (p + 3)

/-- The first `len` bytes stored from `p` on. -/
def bytesAt (o : Mem) (p len : Nat) : List Nat := (List.range len).map fun i => rd8 o (p + i)

/-! ## Constants of `include/jffs2-user.h` and `<dirent.h>` -/

/-- Modelled from the spec: `JFFS2_MAGIC_BITMASK` of the header
`include/jffs2-user.h`, which is not part of the sources at hand (spec §3, §6:
magic = 0x1985). -/
def JFFS2_MAGIC_BITMASK : Nat := 0x1985

/-- Modelled from the spec: `JFFS2_NODETYPE_INODE` (spec §6: inode = 0xE001). -/
def JFFS2_NODETYPE_INODE : Nat := 0xE001

/-- Modelled from the spec: `JFFS2_NODETYPE_DIRENT` (spec §6: dirent = 0xE002). -/
def JFFS2_NODETYPE_DIRENT : Nat := 0xE002

/-- Modelled from the spec: compression tag none = 0x00 (spec §6). -/
def JFFS2_COMPR_NONE : Nat := 0x00

/-- Modelled from the spec: compression tag zero = 0x01 (spec §6). -/
def JFFS2_COMPR_ZERO : Nat := 0x01

/-- Modelled from the spec: compression tag rtime = 0x02 (spec §6). -/
def JFFS2_COMPR_RTIME : Nat := 0x02

/-- Modelled from the spec: compression tag zlib = 0x06 (spec §6). -/
def JFFS2_COMPR_ZLIB : Nat := 0x06

/-- Modelled from the spec: `sizeof(struct jffs2_raw_inode)`, the offset of the
payload in an inode revision (spec §6: the fields before the payload take 68
bytes). -/
def sizeof_raw_inode : Nat := 68

/-- Modelled from the spec: the offset of `name` in `struct jffs2_raw_dirent`
(spec §6; the field `ino`, which the code reads as `n->d.ino`, sits between
`version` and `mctime` as in the on-disk format). -/
def sizeof_raw_dirent : Nat := 40

/-- The largest `uint32_t`, written `~((uint32_t) 0)` in the source. -/
def UINT32_MAX : Nat := 2 ^ 32 - 1

/-! ## Node views -/

/-- The fields of `struct jffs2_raw_dirent` the program reads, with the
`nsize` name bytes that follow the header. -/
structure jffs2_raw_dirent where
  pino : Nat
  version : Nat
  ino : Nat
  nsize : Nat
  type : Nat
  name : List Nat
deriving DecidableEq, Repr

/-- Modelled from the spec: the layout of `struct jffs2_raw_dirent` (spec §6),
decoding the dirent node that starts at offset `n`. -/
def direntAt (o : Mem) (n : Nat) : jffs2_raw_dirent :=
  { pino := je32_to_cpu o (n + 12)
    version := je32_to_cpu o (n + 16)
    ino := je32_to_cpu o (n + 20)
    nsize := rd8 o (n + 28)
    type := rd8 o (n + 29)
    name := bytesAt o (n + sizeof_raw_dirent) (rd8 o (n + 28)) }

/-- The fields of `struct jffs2_raw_inode` the program reads; `data` is the
memory that starts right after the header. -/
structure jffs2_raw_inode where
  ino : Nat
  version : Nat
  isize : Nat
  offset : Nat
  csize : Nat
  dsize : Nat
  compr : Nat
  data : Mem

/-- Modelled from the spec: the layout of `struct jffs2_raw_inode` (spec §6),
decoding the inode node that starts at offset `n`. -/
def inodeAt (o : Mem) (n : Nat) : jffs2_raw_inode :=
  { ino := je32_to_cpu o (n + 12)
    version := je32_to_cpu o (n + 16)
    isize := je32_to_cpu o (n + 28)
    offset := je32_to_cpu o (n + 44)
    csize := je32_to_cpu o (n + 48)
    dsize := je32_to_cpu o (n + 52)
    compr := rd8 o (n + 56)
    data := fun i => o (n + sizeof_raw_inode + i) }

/-! ## Directory state: `struct dir` and `putdir` -/

/-- One record of the linked list `struct dir`; `name` holds the `nsize` bytes
that `memcpy` stored (the rest of `name[256]` is never compared). -/
structure dir where
  type : Nat
  nsize : Nat
  ino : Nat
  name : List Nat
deriving DecidableEq, Repr

/-- The test `n->nsize == dd->nsize && !memcmp(n->name, dd->name, n->nsize)`. -/
def sameName (n : jffs2_raw_dirent) (dd : dir) : Bool :=
  n.nsize == dd.nsize && n.name.take n.nsize == dd.name.take n.nsize

/-- The record `putdir` allocates for a dirent. -/
def newdir (n : jffs2_raw_dirent) : dir :=
  { type := n.type, nsize := n.nsize, ino := n.ino, name := n.name.take n.nsize }

/-- The branch of `putdir` for a nonzero target inode: overwrite the first
record of equal name, or append a record when the end of the list is reached. -/
def putdir_add (n : jffs2_raw_dirent) : List dir → List dir
  | [] => [newdir n]
  | dd :: rest =>
    if sameName n dd then { dd with type := n.type, ino := n.ino } :: rest
    else dd :: putdir_add n rest

/-- The branch of `putdir` for target inode zero: unlink the first record of
equal name, if any. -/
def putdir_del (n : jffs2_raw_dirent) : List dir → List dir
  | [] => []
  | dd :: rest => if sameName n dd then rest else dd :: putdir_del n rest

/-- The function `putdir`: adds/removes a directory node into the dir list. -/
def putdir (dd : List dir) (n : jffs2_raw_dirent) : List dir :=
  if n.ino ≠ 0 then putdir_add n dd else putdir_del n dd

/-- The name of a record as the comparison sees it: its length and its bytes. -/
def dirKey (d : dir) : Nat × List Nat := (d.nsize, d.name.take d.nsize)

/-- The name of a dirent revision: its length and its bytes. -/
def direntKey (n : jffs2_raw_dirent) : Nat × List Nat := (n.nsize, n.name.take n.nsize)

/-- No two records of the directory state have the same name. -/
def uniqueNames (d : List dir) : Prop := (d.map dirKey).Nodup

/-! ## Outcomes -/

/-- How a run ends: with a value, in `errmsg_die`, in undefined behaviour
(a NULL or out-of-range dereference), or without an answer within the given
number of loop iterations. -/
inductive Res (α : Type) where
  | ok (a : α)
  | fatal
  | undefined
  | timeout
deriving DecidableEq, Repr

/-- Apply a function to the value of a run that ends with one. -/
def Res.map {α β : Type} (f : α → β) : Res α → Res β
  | .ok a => .ok (f a)
  | .fatal => .fatal
  | .undefined => .undefined
  | .timeout => .timeout

/-! ## Buffers: `bzero`, `memcpy`, `putblock` -/

/-- The call `bzero(b + p, len)`. -/
def bzero (b : Mem) (p len : Nat) : Mem := fun i => if p ≤ i ∧ i < p + len then 0 else b i

/-- The call `memcpy(b + p, src, len)` for a source that does not overlap the
destination. -/
def memcpy (b : Mem) (p : Nat) (src : Mem) (len : Nat) : Mem :=
  fun i => if p ≤ i ∧ i < p + len then src (i - p) else b i

/-- The bytes `b[0 .. len)`. -/
def Mem.toList (b : Mem) (len : Nat) : List Nat := (List.range len).map b

/-- The value of `(short) x` read back as an `int` (two's complement). -/
def toShort (x : Nat) : Int :=
  if x % 65536 < 32768 then ((x % 65536 : Nat) : Int) else ((x % 65536 : Nat) : Int) - 65536

/-- The variables of `jffs2_rtime_decompress`. -/
structure rtime_state where
  cpage_out : Mem
  positions : Nat → Int
  outpos : Nat
  pos : Nat

/-- The loop `while(repeat) { cpage_out[outpos++] = cpage_out[backoffs++]; repeat--; }`;
returns the buffer and `outpos`. -/
def rtime_copy : Nat → Mem → Nat → Nat → Mem × Nat
  | 0, cpage_out, outpos, _ => (cpage_out, outpos)
  | rep + 1, cpage_out, outpos, backoffs =>
    rtime_copy rep (Function.update cpage_out outpos (cpage_out backoffs)) (outpos + 1)
      (backoffs + 1)

/-- One pass through the body of `while (outpos<destlen)`.  A negative
`backoffs` that is dereferenced (an index before the output buffer) is
undefined behaviour, `none`. -/
def rtime_body (data_in : Mem) (s : rtime_state) : Option rtime_state :=
  let value := rd8 data_in s.pos
  let out1 := Function.update s.cpage_out s.outpos value
  let outpos1 := s.outpos + 1
  let rep := rd8 data_in (s.pos + 1)
  let backoffs : Int := s.positions value
  let positions1 := Function.update s.positions value (toShort outpos1)
  if rep = 0 then
    some { cpage_out := out1, positions := positions1, outpos := outpos1, pos := s.pos + 2 }
  else if backoffs < 0 then none
  else if backoffs + (rep : Int) ≥ (outpos1 : Int) then
    let r := rtime_copy rep out1 outpos1 backoffs.toNat
    some { cpage_out := r.1, positions := positions1, outpos := r.2, pos := s.pos + 2 }
  else
    some { cpage_out := memcpy out1 outpos1 (fun j => out1 (backoffs.toNat + j)) rep
           positions := positions1, outpos := outpos1 + rep, pos := s.pos + 2 }

/-- The loop `while (outpos<destlen)`, at most `fuel` passes. -/
def rtime_loop (data_in : Mem) (destlen : Nat) : Nat → rtime_state → Res rtime_state
  | 0, s => if s.outpos < destlen then .timeout else .ok s
  | fuel + 1, s =>
    if s.outpos < destlen then
      match rtime_body data_in s with
      | none => .undefined
      | some s1 => rtime_loop data_in destlen fuel s1
    else .ok s

/-- The function `jffs2_rtime_decompress` (`srclen` is not read).  Every pass
advances `outpos`, so `destlen` passes are enough. -/
def jffs2_rtime_decompress (data_in cpage_out : Mem) (_srclen destlen : Nat) : Res rtime_state :=
  rtime_loop data_in destlen destlen
    { cpage_out := cpage_out, positions := fun _ => 0, outpos := 0, pos := 0 }

/-- The function `putblock`: writes a file node into the buffer `b` of size
`bsize`; returns the buffer and `*rsize`.  The library call `uncompress` is a
parameter: `uncompress src srclen dlen` is the bytes it stores (at most
`dlen` are kept).  The rtime decompressor stores at `b[offset .. offset + outpos)`
and does not know `bsize`: a run that ends with `offset + outpos` above `bsize`
has stored past the end of the buffer, undefined behaviour. -/
def putblock (uncompress : Mem → Nat → Nat → List Nat) (b : Mem) (bsize rsize : Nat)
    (n : jffs2_raw_inode) : Res (Mem × Nat) :=
  let dlen := n.dsize
  if n.isize > bsize ∨ n.offset + dlen > bsize then .fatal
  else
    let b1 := if rsize < n.isize then bzero b rsize (n.isize - rsize) else b
    if n.compr = JFFS2_COMPR_ZLIB then
      let z := (uncompress n.data n.csize dlen).take dlen
      .ok (memcpy b1 n.offset (Mem.ofList z) z.length, n.isize)
    else if n.compr = JFFS2_COMPR_NONE then
      .ok (memcpy b1 n.offset n.data dlen, n.isize)
    else if n.compr = JFFS2_COMPR_ZERO then
      .ok (bzero b1 n.offset dlen, n.isize)
    else if n.compr = JFFS2_COMPR_RTIME then
      match jffs2_rtime_decompress n.data (fun i => b1 (n.offset + i)) n.csize n.dsize with
      | .ok s =>
        if n.offset + s.outpos ≤ bsize then
          .ok (fun i => if i < n.offset then b1 i else s.cpage_out (i - n.offset), n.isize)
        else .undefined
      | .fatal => .fatal
      | .undefined => .undefined
      | .timeout => .timeout
    else .fatal

/-! ## Scanning the node stream -/

/-- The loop `while (n < e && je16_to_cpu(n->u.magic) != JFFS2_MAGIC_BITMASK) ADD_BYTES(n, 4)`,
at most `fuel` steps. -/
def skip_padding_loop (o : Mem) (size : Nat) : Nat → Nat → Nat
  | 0, n => n
  | fuel + 1, n =>
    if n < size ∧ je16_to_cpu o n ≠ JFFS2_MAGIC_BITMASK then skip_padding_loop o size fuel (n + 4)
    else n

/-- The padding loop started at `n`; it stops within `size - n` steps. -/
def skip_padding (o : Mem) (size n : Nat) : Nat := skip_padding_loop o size (size - n) n

/-- The expression `(je32_to_cpu(n->u.totlen) + 3) & ~3` in `uint32_t`. -/
def node_len (o : Mem) (n : Nat) : Nat := ((je32_to_cpu o (n + 4) + 3) % 2 ^ 32) &&& 0xFFFFFFFC

/-- The test `n < e && je16_to_cpu(n->u.magic) == JFFS2_MAGIC_BITMASK`. -/
def at_node (o : Mem) (size n : Nat) : Bool :=
  decide (n < size) && je16_to_cpu o n == JFFS2_MAGIC_BITMASK

/-- The variables of `find_raw_inode` that change (`lr` stays `o`, `vmin` is
only written). -/
structure fri_state where
  n : Nat
  mp : Option Nat
  vmint : Nat
  vmaxt : Nat
  vmax : Nat
deriving DecidableEq, Repr

/-- The first half of the body of the `do` loop of `find_raw_inode`: skip
padding, look at the node at `n` (or rewind); `.inl` is `return (&(n->i))`. -/
def find_raw_inode_scan (o : Mem) (size ino vcur : Nat) (s : fri_state) :
    Option Nat ⊕ fri_state :=
  let n := skip_padding o size s.n
  if at_node o size n then
    let v := je32_to_cpu o (n + 16)
    let hit : Bool := je16_to_cpu o (n + 2) == JFFS2_NODETYPE_INODE &&
      je32_to_cpu o (n + 12) == ino && decide (v > vcur)
    let vmaxt := if hit && decide (s.vmaxt < v) then v else s.vmaxt
    let mp := if hit && decide (s.vmint > v) then some n else s.mp
    let vmint := if hit && decide (s.vmint > v) then v else s.vmint
    if hit && v == (vcur + 1) % 2 ^ 32 then .inl (some n)
    else .inr { n := n + node_len o n, mp := mp, vmint := vmint, vmaxt := vmaxt, vmax := s.vmax }
  else .inr { s with n := 0 }

/-- The second half of the body: the test `lr == n` (with `lr` equal to `o`)
for a whole revolution; `.inl` is `return (&(mp->i))`, which is NULL for a
NULL `mp` (`i` is the first member of the union). -/
def find_raw_inode_wrap (vcur : Nat) (s : fri_state) : Option Nat ⊕ fri_state :=
  if 0 = s.n then
    if vcur < s.vmaxt ∧ vcur < s.vmint then .inl s.mp
    else .inr { s with vmax := s.vmaxt, vmint := UINT32_MAX }
  else .inr s

/-- One pass through the body of the `do` loop of `find_raw_inode`: a returned
pointer, or the variables at the loop test. -/
def find_raw_inode_body (o : Mem) (size ino vcur : Nat) (s : fri_state) :
    Option Nat ⊕ fri_state :=
  match find_raw_inode_scan o size ino vcur s with
  | .inl r => .inl r
  | .inr s1 => find_raw_inode_wrap vcur s1

/-- The `do ... while (vcur < vmax)` loop of `find_raw_inode`, at most `fuel`
passes; after the loop the function returns NULL. -/
def find_raw_inode_loop (o : Mem) (size ino vcur : Nat) : Nat → fri_state → Res (Option Nat)
  | 0, _ => .timeout
  | fuel + 1, s =>
    match find_raw_inode_body o size ino vcur s with
    | .inl r => .ok r
    | .inr s1 => if vcur < s1.vmax then find_raw_inode_loop o size ino vcur fuel s1 else .ok none

/-- The function `find_raw_inode`: the returned pointer is an offset into the
image, `none` is NULL. -/
def find_raw_inode (o : Mem) (size ino vcur : Nat) (fuel : Nat) : Res (Option Nat) :=
  find_raw_inode_loop o size ino vcur fuel
    { n := 0, mp := none, vmint := UINT32_MAX, vmaxt := 0, vmax := UINT32_MAX }

/-- The variables of `collectdir` that change (`vmin` is kept only until the
test that follows its assignment). -/
structure cd_state where
  n : Nat
  lr : Nat
  mp : Option Nat
  vmint : Nat
  vmaxt : Nat
  vmax : Nat
  vcur : Nat
  d : List dir
deriving DecidableEq, Repr

/-- The first half of the body of the `do` loop of `collectdir`: skip padding,
look at the node at `n` (or rewind). -/
def collectdir_scan (o : Mem) (size ino : Nat) (s : cd_state) : cd_state :=
  let n := skip_padding o size s.n
  if at_node o size n then
    let v := je32_to_cpu o (n + 16)
    let hit : Bool := je16_to_cpu o (n + 2) == JFFS2_NODETYPE_DIRENT &&
      je32_to_cpu o (n + 12) == ino && decide (v > s.vcur)
    let vmaxt := if hit && decide (s.vmaxt < v) then v else s.vmaxt
    let mp := if hit && decide (s.vmint > v) then some n else s.mp
    let vmint := if hit && decide (s.vmint > v) then v else s.vmint
    if hit && v == (s.vcur + 1) % 2 ^ 32 then
      { n := n + node_len o n, lr := n, mp := mp, vmint := UINT32_MAX, vmaxt := vmaxt,
        vmax := s.vmax, vcur := (s.vcur + 1) % 2 ^ 32, d := putdir s.d (direntAt o n) }
    else
      { n := n + node_len o n, lr := s.lr, mp := mp, vmint := vmint, vmaxt := vmaxt,
        vmax := s.vmax, vcur := s.vcur, d := s.d }
  else { s with n := 0 }

/-- The second half of the body: the test `lr == n` for a whole revolution.
Applying `putdir` to a NULL `mp` is undefined behaviour, `none`. -/
def collectdir_wrap (o : Mem) (s : cd_state) : Option cd_state :=
  if s.lr = s.n then
    if s.vcur < s.vmaxt ∧ s.vcur < s.vmint then
      match s.mp with
      | none => none
      | some m =>
        some { n := m + node_len o m, lr := m + node_len o m, mp := s.mp, vmint := UINT32_MAX,
               vmaxt := s.vmaxt, vmax := s.vmaxt, vcur := s.vmint,
               d := putdir s.d (direntAt o m) }
    else some { s with vmax := s.vmaxt, vmint := UINT32_MAX }
  else some s

/-- The `do ... while (vcur < vmax)` loop of `collectdir`, at most `fuel`
passes. -/
def collectdir_loop (o : Mem) (size ino : Nat) : Nat → cd_state → Res (List dir)
  | 0, _ => .timeout
  | fuel + 1, s =>
    match collectdir_wrap o (collectdir_scan o size ino s) with
    | none => .undefined
    | some s1 => if s1.vcur < s1.vmax then collectdir_loop o size ino fuel s1 else .ok s1.d

/-- The function `collectdir`: collects the dir list for the inode `ino`. -/
def collectdir (o : Mem) (size ino : Nat) (d : List dir) (fuel : Nat) : Res (List dir) :=
  collectdir_loop o size ino fuel
    { n := 0, lr := 0, mp := none, vmint := UINT32_MAX, vmaxt := 0, vmax := UINT32_MAX,
      vcur := 0, d := d }

/-! ## The extract visitor -/

/-- What `do_extract` does on the host for one record: `mkdir(fnbuf, 0777)`;
a file opened with mode 0666 and the bytes of its successive `write` calls,
concatenated; a failed `open`; or nothing but the warning for a special
file. -/
inductive extract_action where
  | mkdir
  | file (written : List Nat)
  | open_failed
  | skipped
deriving DecidableEq, Repr

/-- The loop `while(ri)` of `do_extract`.  The array `buf`, declared in the
loop body, keeps its storage and so its contents from one pass to the next;
`write` stores all of `buf[0 .. sz)`.  Each call of `find_raw_inode` gets
`scanfuel` passes. -/
def do_extract_loop (uncompress : Mem → Nat → Nat → List Nat) (imagebuf : Mem)
    (imagesize ino scanfuel : Nat) : Nat → Option Nat → Mem → Nat → List Nat → Res (List Nat)
  | 0, _, _, _, _ => .timeout
  | _ + 1, none, _, _, written => .ok written
  | fuel + 1, some ri, buf, sz, written =>
    match putblock uncompress buf 16384 sz (inodeAt imagebuf ri) with
    | .ok r =>
      match find_raw_inode imagebuf imagesize ino (inodeAt imagebuf ri).version scanfuel with
      | .ok ri1 =>
        do_extract_loop uncompress imagebuf imagesize ino scanfuel fuel ri1 r.1 r.2
          (written ++ Mem.toList r.1 r.2)
      | .fatal => .fatal
      | .undefined => .undefined
      | .timeout => .timeout
    | .fatal => .fatal
    | .undefined => .undefined
    | .timeout => .timeout

/-- The function `do_extract` (the file name, `verbose` and the messages are
left out).  `open_ok` says whether `open` succeeds, `buf0` is what the stack
holds where `buf` is placed. -/
def do_extract (uncompress : Mem → Nat → Nat → List Nat) (imagebuf : Mem) (imagesize : Nat)
    (d : dir) (m : Char) (ri : Option Nat) (open_ok : Bool) (buf0 : Mem) (fuel : Nat) :
    Res extract_action :=
  if m = '/' then .ok .mkdir
  else if m = ' ' then
    if open_ok then
      match do_extract_loop uncompress imagebuf imagesize d.ino fuel fuel ri buf0 0 [] with
      | .ok written => .ok (.file written)
      | .fatal => .fatal
      | .undefined => .undefined
      | .timeout => .timeout
    else .ok .open_failed
  else .ok .skipped

/-- The file materializer of the spec (§4.5): apply `putblock` to the
revisions of a file in the given (ascending version) order, from a
zero-filled buffer; the content is the first `isize` bytes, `isize` that of
the last revision. -/
def materialize (uncompress : Mem → Nat → Nat → List Nat) (bsize : Nat) :
    List jffs2_raw_inode → Mem → Nat → Res (List Nat)
  | [], b, rsize => .ok (Mem.toList b rsize)
  | n :: rest, b, rsize =>
    match putblock uncompress b bsize rsize n with
    | .ok r => materialize uncompress bsize rest r.1 r.2
    | .fatal => .fatal
    | .undefined => .undefined
    | .timeout => .timeout

/-! ## The reference rtime decoder of the spec -/

/-- The state of the reference rtime decoder of the spec (§4.3): the output
so far, the table `pos[0..255]`, and the read position in the input. -/
structure rtime_ref_state where
  out : List Nat
  pos : Nat → Nat
  inp : Nat

/-- The single copy rule of the reference decoder: emit `r` further bytes,
the `j`-th being the output byte at index `b + j` of the output as it
grows. -/
def rtime_ref_emit : Nat → Nat → List Nat → List Nat
  | 0, _, out => out
  | r + 1, b, out => rtime_ref_emit r (b + 1) (out ++ [out.getD b 0])

/-- One round of the reference decoder: read `v`, emit it, read `r`, let
`b = pos[v]`, set `pos[v]` to the output offset just after `v`, emit `r`
further bytes from `b`. -/
def rtime_ref_step (input : Mem) (s : rtime_ref_state) : rtime_ref_state :=
  let v := rd8 input s.inp
  let r := rd8 input (s.inp + 1)
  let b := s.pos v
  { out := rtime_ref_emit r b (s.out ++ [v])
    pos := Function.update s.pos v (s.out.length + 1)
    inp := s.inp + 2 }

/-- The rounds of the reference decoder while the output offset is below
`dsize`, at most `fuel` of them. -/
def rtime_ref_loop (input : Mem) (dsize : Nat) : Nat → rtime_ref_state → List Nat
  | 0, s => s.out
  | fuel + 1, s =>
    if s.out.length < dsize then rtime_ref_loop input dsize fuel (rtime_ref_step input s)
    else s.out

/-- The reference rtime decoder as the spec words it (§4.3), with a table
initialised to zero; every round emits at least one byte, so `dsize` rounds
are enough. -/
def rtime_reference (input : Mem) (dsize : Nat) : List Nat :=
  rtime_ref_loop input dsize dsize { out := [], pos := fun _ => 0, inp := 0 }

/-- The simulation relation between the variables of `jffs2_rtime_decompress`
and the state of the reference decoder. -/
structure rtime_sim (out0 : Mem) (s : rtime_state) (t : rtime_ref_state) : Prop where
  out_eq : Mem.toList s.cpage_out s.outpos = t.out
  pos_eq : ∀ v, s.positions v = ((t.pos v : Nat) : Int)
  pos_le : ∀ v, t.pos v ≤ s.outpos
  inp_eq : s.pos = t.inp
  rest_eq : ∀ i, s.outpos ≤ i → s.cpage_out i = out0 i

/-! ## The nodes of a scan and the inode sweep -/

/-- The offsets of the nodes that a scan started at `n` looks at, in scan
order, up to the point where it runs off the image and rewinds; `none` when
more than `fuel` nodes lie on the way. -/
def scan_nodes (o : Mem) (size : Nat) : Nat → Nat → Option (List Nat)
  | 0, n => if at_node o size (skip_padding o size n) then none else some []
  | fuel + 1, n =>
    if at_node o size (skip_padding o size n) then
      (scan_nodes o size fuel (skip_padding o size n + node_len o (skip_padding o size n))).map
        fun l => skip_padding o size n :: l
    else some []

/-- The node at `m` is an inode revision of `ino` with a version above `vcur`:
the test `nodetype == JFFS2_NODETYPE_INODE && ino == ino && version > vcur`. -/
def inode_hit (o : Mem) (ino vcur m : Nat) : Bool :=
  je16_to_cpu o (m + 2) == JFFS2_NODETYPE_INODE && je32_to_cpu o (m + 12) == ino &&
    decide (je32_to_cpu o (m + 16) > vcur)

/-- Among the nodes `l` (in scan order), `m` is the first revision of `ino`
that has the smallest version above `vcur`. -/
def is_next_revision (o : Mem) (ino vcur : Nat) (l : List Nat) (m : Nat) : Prop :=
  ∃ p1 p2, l = p1 ++ m :: p2 ∧ inode_hit o ino vcur m = true ∧
    (∀ x ∈ p1, inode_hit o ino vcur x = true → je32_to_cpu o (m + 16) < je32_to_cpu o (x + 16)) ∧
    (∀ x ∈ p2, inode_hit o ino vcur x = true → je32_to_cpu o (m + 16) ≤ je32_to_cpu o (x + 16))

/-- What the variables of `find_raw_inode` hold after the nodes `pre` have been
looked at without a return. -/
structure fri_inv (o : Mem) (ino vcur : Nat) (pre : List Nat) (s : fri_state) : Prop where
  seen : ∀ x ∈ pre, inode_hit o ino vcur x = true →
    s.vmint ≤ je32_to_cpu o (x + 16) ∧ je32_to_cpu o (x + 16) ≠ (vcur + 1) % 2 ^ 32 ∧
      vcur < s.vmaxt
  nohit : (∀ x ∈ pre, inode_hit o ino vcur x = false) → s.vmaxt = 0 ∧ s.vmint = UINT32_MAX
  mp_none : s.mp = none → ∀ x ∈ pre, inode_hit o ino vcur x = false
  mp_some : ∀ m, s.mp = some m → ∃ p1 p2, pre = p1 ++ m :: p2 ∧ inode_hit o ino vcur m = true ∧
    je32_to_cpu o (m + 16) = s.vmint ∧
    ∀ x ∈ p1, inode_hit o ino vcur x = true → s.vmint < je32_to_cpu o (x + 16)
  vmint_le : s.vmint ≤ UINT32_MAX
  vmax_eq : s.vmax = UINT32_MAX

/-- The outcome the claim asks for on the nodes `l`. -/
def fri_post (o : Mem) (ino vcur : Nat) (l : List Nat) (r : Option Nat) : Prop :=
  (r = none ∧ ∀ x ∈ l, inode_hit o ino vcur x = false) ∨
  (∃ m, r = some m ∧ is_next_revision o ino vcur l m)

/-- The state after a node at `m` that does not make `find_raw_inode` return. -/
def fri_next (o : Mem) (ino vcur m : Nat) (s : fri_state) : fri_state :=
  { n := m + node_len o m
    mp := if inode_hit o ino vcur m = true ∧ s.vmint > je32_to_cpu o (m + 16) then some m
          else s.mp
    vmint := if inode_hit o ino vcur m = true ∧ s.vmint > je32_to_cpu o (m + 16) then
          je32_to_cpu o (m + 16) else s.vmint
    vmaxt := if inode_hit o ino vcur m = true ∧ s.vmaxt < je32_to_cpu o (m + 16) then
          je32_to_cpu o (m + 16) else s.vmaxt
    vmax := s.vmax }

/-! ## The scan cycle and the dirent sweep -/

/-- Where the scan of `collectdir` stands one pass after it stood at `p`, when
no padding lies before `p`: behind the node at `p`, or back at the start of
the image. -/
def cd_nxt (o : Mem) (size p : Nat) : Nat := if at_node o size p then p + node_len o p else 0

/-- The position of the scan `i` passes after the start of the image. -/
def cd_pos (o : Mem) (size i : Nat) : Nat := (cd_nxt o size)^[i] 0

/-- The node at `m` is a dirent revision under the parent `ino` with a version
above `vcur`: the test of `collectdir`, made at a node. -/
def dirent_hit (o : Mem) (size ino vcur m : Nat) : Bool :=
  at_node o size m && (je16_to_cpu o (m + 2) == JFFS2_NODETYPE_DIRENT &&
    je32_to_cpu o (m + 12) == ino && decide (je32_to_cpu o (m + 16) > vcur))

/-- The scan positions form a cycle of `K` positions with no padding before any
of them: after `K` passes the scan is back at the start for the first time. -/
structure cd_orbit (o : Mem) (size K : Nat) : Prop where
  nopad : ∀ i, at_node o size (skip_padding o size (cd_pos o size i)) = at_node o size (cd_pos o size i)
  len_ne : ∀ i, at_node o size (cd_pos o size i) = true → node_len o (cd_pos o size i) ≠ 0
  period : cd_pos o size K = 0
  first : ∀ i, 0 < i → i < K → cd_pos o size i ≠ 0

/-- The variables of `collectdir` after a pass that neither applies the node
at `n` nor rewinds the version marks. -/
def cd_step (o : Mem) (size ino : Nat) (s : cd_state) : cd_state :=
  { n := cd_nxt o size s.n
    lr := s.lr
    mp := if dirent_hit o size ino s.vcur s.n = true ∧ s.vmint > je32_to_cpu o (s.n + 16) then
        some s.n else s.mp
    vmint := if dirent_hit o size ino s.vcur s.n = true ∧ s.vmint > je32_to_cpu o (s.n + 16) then
        je32_to_cpu o (s.n + 16) else s.vmint
    vmaxt := if dirent_hit o size ino s.vcur s.n = true ∧ s.vmaxt < je32_to_cpu o (s.n + 16) then
        je32_to_cpu o (s.n + 16) else s.vmaxt
    vmax := s.vmax
    vcur := s.vcur
    d := s.d }

/-- The variables of `collectdir` after a pass that applies the node at `n`,
whose version is `vcur + 1`. -/
def cd_accept (o : Mem) (size ino : Nat) (s : cd_state) : cd_state :=
  { n := cd_nxt o size s.n
    lr := s.n
    mp := if dirent_hit o size ino s.vcur s.n = true ∧ s.vmint > je32_to_cpu o (s.n + 16) then
        some s.n else s.mp
    vmint := UINT32_MAX
    vmaxt := if dirent_hit o size ino s.vcur s.n = true ∧ s.vmaxt < je32_to_cpu o (s.n + 16) then
        je32_to_cpu o (s.n + 16) else s.vmaxt
    vmax := s.vmax
    vcur := (s.vcur + 1) % 2 ^ 32
    d := putdir s.d (direntAt o s.n) }

/-- The images on which the dirent sweep is shown to work: the scan positions
form a cycle of `K` positions, no padding lies before any of them, the dirent
revisions under `ino` have pairwise distinct versions, all below
`0xFFFFFFFF`. -/
structure cd_hyp (o : Mem) (size ino K : Nat) extends cd_orbit o size K : Prop where
  Kpos : 0 < K
  dist : ∀ i j, dirent_hit o size ino 0 (cd_pos o size i) = true →
    dirent_hit o size ino 0 (cd_pos o size j) = true →
    je32_to_cpu o (cd_pos o size i + 16) = je32_to_cpu o (cd_pos o size j + 16) →
    cd_pos o size i = cd_pos o size j
  below : ∀ j, dirent_hit o size ino 0 (cd_pos o size j) = true →
    je32_to_cpu o (cd_pos o size j + 16) ≠ UINT32_MAX

/-- What the version marks of `collectdir` hold when the `d` positions from
`lr` (position number `a`) on have been looked at since `lr` was set. -/
structure cd_marks (o : Mem) (size ino : Nat) (s : cd_state) (a d : Nat) : Prop where
  seen : ∀ i, i < d → dirent_hit o size ino s.vcur (cd_pos o size (a + i)) = true →
    s.vmint ≤ je32_to_cpu o (cd_pos o size (a + i) + 16) ∧
      je32_to_cpu o (cd_pos o size (a + i) + 16) ≤ s.vmaxt
  cand : (s.vmint = UINT32_MAX ∧
      ∀ i, i < d → dirent_hit o size ino s.vcur (cd_pos o size (a + i)) = false) ∨
    ∃ i, i < d ∧ s.mp = some (cd_pos o size (a + i)) ∧
      dirent_hit o size ino s.vcur (cd_pos o size (a + i)) = true ∧
      je32_to_cpu o (cd_pos o size (a + i) + 16) = s.vmint
  top : s.vmaxt = 0 ∨ ∃ j, dirent_hit o size ino 0 (cd_pos o size j) = true ∧
    je32_to_cpu o (cd_pos o size j + 16) = s.vmaxt

/-- The directory state after the dirent nodes `acc` have been applied to `d0`
in the order of the list. -/
def replay (o : Mem) (d0 : List dir) (acc : List Nat) : List dir :=
  acc.foldl (fun d m => putdir d (direntAt o m)) d0

/-- The invariant of the loop of `collectdir`: the nodes `acc` applied so far
are the dirent revisions of `ino` with a version up to `vcur`, in ascending
version order. -/
structure cd_inv (o : Mem) (size ino : Nat) (d0 : List dir) (s : cd_state) (a d : Nat)
    (acc : List Nat) : Prop where
  lr_eq : s.lr = cd_pos o size a
  n_eq : s.n = cd_pos o size (a + d)
  vcur_lt : s.vcur < UINT32_MAX
  marks : cd_marks o size ino s a d
  vmax_ge : ∀ j, dirent_hit o size ino 0 (cd_pos o size j) = true →
    je32_to_cpu o (cd_pos o size j + 16) ≤ s.vmax
  d_eq : s.d = replay o d0 acc
  sorted : acc.Pairwise fun x y => je32_to_cpu o (x + 16) < je32_to_cpu o (y + 16)
  mem : ∀ x, x ∈ acc ↔ (∃ j, x = cd_pos o size j) ∧ dirent_hit o size ino 0 x = true ∧
    je32_to_cpu o (x + 16) ≤ s.vcur

/-- What `collectdir` has to return: the nodes `acc` applied are all the dirent
revisions of `ino` with a version above 0, in ascending version order. -/
def cd_final (o : Mem) (size ino : Nat) (acc : List Nat) : Prop :=
  (acc.Pairwise fun x y => je32_to_cpu o (x + 16) < je32_to_cpu o (y + 16)) ∧
  ∀ x, x ∈ acc ↔ (∃ j, x = cd_pos o size j) ∧ dirent_hit o size ino 0 x = true

/-- How many dirent revisions of `ino` in the cycle have a version above
`vcur`. -/
def cd_count (o : Mem) (size ino K vcur : Nat) : Nat :=
  ((List.range K).filter fun i => dirent_hit o size ino vcur (cd_pos o size i)).length

/-! ## Sample images -/

/-- A 32-bit field, little-endian. -/
def le32 (x : Nat) : List Nat := [x % 256, x / 256 % 256, x / 65536 % 256, x / 16777216 % 256]

/-- A 16-bit field, little-endian. -/
def le16 (x : Nat) : List Nat := [x % 256, x / 256 % 256]

/-- Pad with 0xFF to a multiple of four bytes. -/
def pad4 (l : List Nat) : List Nat := l ++ List.replicate ((4 - l.length % 4) % 4) 0xFF

/-- The bytes of a dirent node (CRC fields zero, they are never read). -/
def mkDirent (pino version ino type : Nat) (name : List Nat) : List Nat :=
  pad4 (le16 0x1985 ++ le16 0xE002 ++ le32 (40 + name.length) ++ le32 0 ++ le32 pino ++
    le32 version ++ le32 ino ++ le32 0 ++ [name.length, type, 0, 0] ++ le32 0 ++ le32 0 ++ name)

/-- The bytes of an inode node of a regular file with mode 0644 (times, owner
and CRC fields zero). -/
def mkInode (ino version isize offset dsize compr : Nat) (data : List Nat) : List Nat :=
  pad4 (le16 0x1985 ++ le16 0xE001 ++ le32 (68 + data.length) ++ le32 0 ++ le32 ino ++
    le32 version ++ le32 0x81A4 ++ le16 0 ++ le16 0 ++ le32 isize ++ le32 0 ++ le32 0 ++ le32 0 ++
    le32 offset ++ le32 data.length ++ le32 dsize ++ [compr, 0] ++ le16 0 ++ le32 0 ++ le32 0 ++
    data)

/-- A stand-in for zlib in examples that have no zlib node. -/
def no_zlib : Mem → Nat → Nat → List Nat := fun _ _ _ => []

/-- Scenario 2 of the spec: two revisions of inode 2, "hello" at offset 0 and
" world" at offset 5. -/
def hello_img : List Nat :=
  mkInode 2 1 5 0 5 0 [104, 101, 108, 108, 111] ++ mkInode 2 2 11 5 6 0 [32, 119, 111, 114, 108, 100]

/-- The second revision of scenario 2. -/
def hello_v2 : jffs2_raw_inode := inodeAt (Mem.ofList hello_img) 76

/-- A directory state with the records `a` -> 2 and `b` -> 3. -/
def ex_dir : List dir :=
  [{ type := 8, nsize := 1, ino := 2, name := [97] }, { type := 8, nsize := 1, ino := 3, name := [98] }]

/-- A dirent revision that adds the directory `c` -> 7. -/
def ex_add_c : jffs2_raw_dirent :=
  { pino := 1, version := 4, ino := 7, nsize := 1, type := 4, name := [99] }

/-- A dirent revision that unlinks `a`. -/
def ex_del_a : jffs2_raw_dirent :=
  { pino := 1, version := 5, ino := 0, nsize := 1, type := 8, name := [97] }

/-- The record `a` -> 2 of a regular file. -/
def ex_file_a : dir := { type := 8, nsize := 1, ino := 2, name := [97] }

/-- An rtime stream whose last record uses the block copy: `A B C`, then `A`
with one byte taken from offset 1, then `D`. -/
def rtime_ex : List Nat := [0x41, 0, 0x42, 0, 0x43, 0, 0x41, 1, 0x44, 0]

/-- An rtime inode revision for the last byte of a 16384-byte buffer whose
single record asks for five repeats. -/
def rtime_overrun_node : jffs2_raw_inode :=
  { ino := 2, version := 1, isize := 16384, offset := 16383, csize := 2, dsize := 1,
    compr := 0x02, data := Mem.ofList [0x41, 0x05] }

/-- Scenario 3 of the spec: three dirent revisions under inode 1, v1 adds
`a` -> 2, v2 adds `b` -> 3, v3 unlinks `a`. -/
def scenario3_img : List Nat :=
  mkDirent 1 1 2 8 [97] ++ mkDirent 1 2 3 8 [98] ++ mkDirent 1 3 0 8 [97]

/-- One padding word followed by the dirent revision v1 `a` -> 2 under
inode 1. -/
def padded_img : List Nat := [0xFF, 0xFF, 0xFF, 0xFF] ++ mkDirent 1 1 2 8 [97]

/-- A single revision of inode 2 whose version is the largest 32-bit value. -/
def max_version_img : List Nat := mkInode 2 0xFFFFFFFF 5 0 5 0 [104, 101, 108, 108, 111]

/-- The variables of `collectdir` on `padded_img` after the dirent has been
applied and the scan has run past the end of the image. -/
def padded_state (n : Nat) : cd_state :=
  { n := n, lr := 4, mp := some 4, vmint := UINT32_MAX, vmaxt := 1, vmax := UINT32_MAX, vcur := 1,
    d := [{ type := 8, nsize := 1, ino := 2, name := [97] }] }

/-- The file-type tags of `<dirent.h>` (spec §6): `DT_DIR`. -/
def DT_DIR : Nat := 4

/-- The file-type tag `DT_LNK` of `<dirent.h>` (spec §6). -/
def DT_LNK : Nat := 10

/-- The macro `DIRENT_INO`: the target inode of a dirent, 0 for NULL. -/
def DIRENT_INO (o : Mem) (dirent : Option Nat) : Nat :=
  match dirent with
  | some d => je32_to_cpu o (d + 20)
  | none => 0

/-- The macro `DIRENT_PINO`: the parent inode of a dirent, 0 for NULL. -/
def DIRENT_PINO (o : Mem) (dirent : Option Nat) : Nat :=
  match dirent with
  | some d => je32_to_cpu o (d + 12)
  | none => 0

/-- The test of `resolvedirent` at the node `n`: a dirent, of target `ino`
unless `ino` is 0, with a version above `vmax`, and, unless `pino` is 0, under
the parent `pino` with the name `name[0 .. nsize)`. -/
def resolvedirent_match (o : Mem) (ino pino : Nat) (name : List Nat) (nsize vmax n : Nat) : Bool :=
  je16_to_cpu o (n + 2) == JFFS2_NODETYPE_DIRENT &&
    (ino == 0 || je32_to_cpu o (n + 20) == ino) &&
    decide (je32_to_cpu o (n + 16) > vmax) &&
    (pino == 0 || (je32_to_cpu o (n + 12) == pino && nsize == rd8 o (n + 28) &&
      name.take nsize == bytesAt o (n + sizeof_raw_dirent) nsize))

/-- The `do ... while (1)` loop of `resolvedirent`, at most `fuel` passes; the
variables are `n`, `dd` and `vmax`. -/
def resolvedirent_loop (o : Mem) (size ino pino : Nat) (name : List Nat) (nsize : Nat) :
    Nat → Nat → Option Nat → Nat → Res (Option Nat)
  | 0, _, _, _ => .timeout
  | fuel + 1, n, dd, vmax =>
    let n1 := skip_padding o size n
    if at_node o size n1 then
      if resolvedirent_match o ino pino name nsize vmax n1 then
        resolvedirent_loop o size ino pino name nsize fuel (n1 + node_len o n1) (some n1)
          (je32_to_cpu o (n1 + 16))
      else resolvedirent_loop o size ino pino name nsize fuel (n1 + node_len o n1) dd vmax
    else .ok dd

/-- The function `resolvedirent`: resolve a dirent based on criteria. -/
def resolvedirent (o : Mem) (size ino pino : Nat) (name : List Nat) (nsize fuel : Nat) :
    Res (Option Nat) :=
  if pino = 0 ∧ ino ≤ 1 then .ok none
  else resolvedirent_loop o size ino pino name nsize fuel 0 none 0

/-- The function `resolvename`: resolve a name under a parent inode to a
dirent. -/
def resolvename (o : Mem) (size pino : Nat) (name : List Nat) (nsize fuel : Nat) :
    Res (Option Nat) :=
  resolvedirent o size 0 pino name nsize fuel

/-- The function `resolveinode`: resolve an inode to a dirent. -/
def resolveinode (o : Mem) (size ino fuel : Nat) : Res (Option Nat) :=
  resolvedirent o size ino 0 [] 0 fuel

/-- A C string: the bytes before the first NUL. -/
def cstr (p : List Nat) : List Nat := p.takeWhile fun c => c != 0

/-- The result of `strchr(path, '/')` as the rest of the string behind the
slash (`next + 1`), `none` for NULL. -/
def after_slash (path : List Nat) : Option (List Nat) :=
  if 47 ∈ path then some (path.dropWhile fun c => c != 47).tail else none

/-- The component of `path` once `*next = 0` is stored: the bytes before the
first slash. -/
def component (path : List Nat) : List Nat := path.takeWhile fun c => c != 47

/-- The variables of the loop of `resolvepath0`: `next` is kept as the string
at `next + 1`, `none` for NULL. -/
structure rp_state where
  ino : Nat
  dir : Option Nat
  next : Option (List Nat)
  recc : Nat
deriving DecidableEq, Repr

/-- The test `dir->type == DT_DIR || dir->type == DT_LNK`. -/
def dir_or_link (o : Mem) (d : Nat) : Bool :=
  rd8 o (d + 29) == DT_DIR || rd8 o (d + 29) == DT_LNK

/-- The environment of `resolvepath0` that is not its argument: the image,
the passes allowed to each scan, zlib, and what the stack holds where `symbuf`
and `symsize` are placed (neither is initialised).  Every symlink is read
starting from these values, also a second one met in the same call, where the
C code starts from what the first one left; the statements below hold for
every `symbuf` and `symsize`. -/
structure rp_env where
  o : Mem
  size : Nat
  scanfuel : Nat
  uncompress : Mem → Nat → Nat → List Nat
  symbuf : Mem
  symsize : Nat

/-- One pass through the body of the `while` loop of `resolvepath0` for the
rest `r` of the path; `.inl` is a `return` with the dirent and `*inos`.
`callee` is the recursive call for a symlink.  The store `symbuf[symsize] = 0`
is inside `char symbuf[1024]` only for `symsize < 1024`; past its end it is
undefined behaviour. -/
def resolvepath0_body (e : rp_env) (callee : Nat → Nat → List Nat → Res (Option Nat × Nat))
    (s : rp_state) (r : List Nat) : Res ((Option Nat × Nat) ⊕ rp_state) :=
  let path := component r
  let next := after_slash r
  if path = [46] then .ok (.inr { s with next := next })
  else if path = [46, 46] then
    if DIRENT_PINO e.o s.dir = 1 then .ok (.inr { s with ino := 1, dir := none, next := next })
    else
      match resolveinode e.o e.size (DIRENT_PINO e.o s.dir) e.scanfuel with
      | .ok dir => .ok (.inr { s with ino := DIRENT_INO e.o dir, dir := dir, next := next })
      | .fatal => .fatal
      | .undefined => .undefined
      | .timeout => .timeout
  else
    match resolvename e.o e.size s.ino path (path.length % 256) e.scanfuel with
    | .ok none => .ok (.inl (none, 0))
    | .ok (some d) =>
      if DIRENT_INO e.o (some d) = 0 ∨ (next ≠ none ∧ dir_or_link e.o d = false) then
        .ok (.inl (none, 0))
      else if rd8 e.o (d + 29) = DT_LNK then
        match find_raw_inode e.o e.size (DIRENT_INO e.o (some d)) 0 e.scanfuel with
        | .ok none => .undefined
        | .ok (some ri) =>
          match putblock e.uncompress e.symbuf 1024 e.symsize (inodeAt e.o ri) with
          | .ok b =>
            if b.2 < 1024 then
              match callee (s.recc + 1) s.ino
                (cstr (bytesAt (Function.update b.1 b.2 0) 0 (b.2 + 1))) with
              | .ok (none, ino1) =>
                .ok (.inr { ino := ino1, dir := none, next := next, recc := s.recc + 1 })
              | .ok (some d1, _) =>
                if next ≠ none ∧ dir_or_link e.o d1 = false then .ok (.inl (none, 0))
                else .ok (.inr { ino := DIRENT_INO e.o (some d1), dir := some d1, next := next,
                                 recc := s.recc + 1 })
              | .fatal => .fatal
              | .undefined => .undefined
              | .timeout => .timeout
            else .undefined
          | .fatal => .fatal
          | .undefined => .undefined
          | .timeout => .timeout
        | .fatal => .fatal
        | .undefined => .undefined
        | .timeout => .timeout
      else .ok (.inr { s with ino := DIRENT_INO e.o (some d), dir := some d, next := next })
    | .fatal => .fatal
    | .undefined => .undefined
    | .timeout => .timeout

/-- The loop `while (ino && next != NULL && next[1] != 0 && d)` of
`resolvepath0`, at most `fuel` passes, and the `return dir` with `*inos = ino`
behind it. -/
def resolvepath0_loop (e : rp_env) (callee : Nat → Nat → List Nat → Res (Option Nat × Nat)) :
    Nat → rp_state → Res (Option Nat × Nat)
  | 0, _ => .timeout
  | fuel + 1, s =>
    match s.next with
    | none => .ok (s.dir, s.ino)
    | some r =>
      if s.ino ≠ 0 ∧ r ≠ [] then
        match resolvepath0_body e callee s r with
        | .ok (.inl ret) => .ok ret
        | .ok (.inr s1) => resolvepath0_loop e callee fuel s1
        | .fatal => .fatal
        | .undefined => .undefined
        | .timeout => .timeout
      else .ok (s.dir, s.ino)

/-- The function `resolvepath0`: resolve a slash-style path into a dirent and
an inode (`*inos`).  `gas` bounds the depth of the recursion, which `recc`
keeps below 18; every pass of the loop takes at least one byte of the path, so
its length plus one bounds the passes. -/
def resolvepath0 (e : rp_env) : Nat → Nat → Nat → List Nat → Res (Option Nat × Nat)
  | 0, _, _, _ => .timeout
  | gas + 1, recc, ino, p =>
    if recc > 16 then .ok (none, 0)
    else
      let path := if (cstr p).head? = some 47 then (cstr p).tail else cstr p
      let ino1 := if (cstr p).head? = some 47 then 1 else ino
      if ino1 > 1 then
        match resolveinode e.o e.size ino1 e.scanfuel with
        | .ok dir =>
          resolvepath0_loop e (resolvepath0 e gas) ((cstr p).length + 1)
            { ino := DIRENT_INO e.o dir, dir := dir, next := some path, recc := recc }
        | .fatal => .fatal
        | .undefined => .undefined
        | .timeout => .timeout
      else
        resolvepath0_loop e (resolvepath0 e gas) ((cstr p).length + 1)
          { ino := ino1, dir := none, next := some path, recc := recc }

/-- The function `resolvepath`. -/
def resolvepath (e : rp_env) (gas ino : Nat) (p : List Nat) : Res (Option Nat × Nat) :=
  resolvepath0 e gas 0 ino p

/-- The type-marker character `m` that `visitdir` computes from `d->type`
(`DT_REG` 8, `DT_FIFO` 1, `DT_CHR` 2, `DT_BLK` 6, `DT_DIR` 4, `DT_LNK` 10,
`DT_SOCK` 12). -/
def type_marker (type : Nat) : Char :=
  if type = 8 then ' '
  else if type = 1 then '|'
  else if type = 2 then ' '
  else if type = 6 then ' '
  else if type = 4 then '/'
  else if type = 10 then ' '
  else if type = 12 then '='
  else '?'

/-- The loop of `visitdir` that searches for newer versions of the inode:
`while (tmpi) { len = dsize + offset; tmpi = find_raw_inode(.., tmpi->version); }`
with `len` a `uint32_t`; at most `fuel` passes. -/
def visitdir_len (o : Mem) (size ino scanfuel : Nat) : Nat → Option Nat → Nat → Res Nat
  | 0, _, _ => .timeout
  | _ + 1, none, len => .ok len
  | fuel + 1, some tmpi, _ =>
    match find_raw_inode o size ino (je32_to_cpu o (tmpi + 16)) scanfuel with
    | .ok t =>
      visitdir_len o size ino scanfuel fuel t
        ((je32_to_cpu o (tmpi + 52) + je32_to_cpu o (tmpi + 44)) % 2 ^ 32)
    | .fatal => .fatal
    | .undefined => .undefined
    | .timeout => .timeout

/-- What `visitdir` passes to the visitor for the record `d`: the marker `m`,
the inode revision `ri` and the length `len`; `none` when the raw inode is
missing and the record is skipped with a warning. -/
def visitdir_args (o : Mem) (size : Nat) (d : dir) (scanfuel fuel : Nat) :
    Res (Option (Char × Nat × Nat)) :=
  match find_raw_inode o size d.ino 0 scanfuel with
  | .ok none => .ok none
  | .ok (some ri) =>
    match visitdir_len o size d.ino scanfuel fuel (some ri) 0 with
    | .ok len => .ok (some (type_marker d.type, ri, len))
    | .fatal => .fatal
    | .undefined => .undefined
    | .timeout => .timeout
  | .fatal => .fatal
  | .undefined => .undefined
  | .timeout => .timeout

/-- An image with the directory `foo` -> 2, the file `a` -> 3 and the symlink
`l` -> 4 with target "a" under the root, and one revision of each inode. -/
def tree_img : List Nat :=
  mkDirent 1 1 2 4 [102, 111, 111] ++ mkDirent 1 2 3 8 [97] ++ mkDirent 1 3 4 10 [108] ++
  mkInode 2 1 0 0 0 0 [] ++ mkInode 3 1 5 0 5 0 [104, 101, 108, 108, 111] ++
  mkInode 4 1 1 0 1 0 [97]

/-- The environment of a path resolution on an image given as a list. -/
def env_of (img : List Nat) (scanfuel : Nat) : rp_env :=
  { o := Mem.ofList img, size := img.length, scanfuel := scanfuel, uncompress := no_zlib,
    symbuf := fun _ => 0xAA, symsize := 7 }

/-- An rtime stream that brings `outpos` to 32768 and then refers back to
the position stored there: 127 records `A` with 255 repeats, `A` with 254
repeats, `B` alone, `B` with one repeat. -/
def rtime_long : List Nat :=
  (List.replicate 127 [0x41, 255]).flatten ++ [0x41, 254, 0x42, 0, 0x42, 1]

/-- An rtime inode revision of 32770 bytes with the stream `rtime_long`. -/
def rtime_long_node : jffs2_raw_inode :=
  { ino := 2, version := 1, isize := 32770, offset := 0, csize := 260, dsize := 32770,
    compr := 0x02, data := Mem.ofList rtime_long }

/-- The three conditions under which `putblock` calls `errmsg_die`. -/
def putblock_dies (bsize : Nat) (n : jffs2_raw_inode) : Prop :=
  n.isize > bsize ∨ n.offset + n.dsize > bsize ∨
    ¬ (n.compr = 0x00 ∨ n.compr = 0x01 ∨ n.compr = 0x02 ∨ n.compr = 0x06)

/-- The record `l` -> 4 of the symlink of `tree_img`. -/
def ex_link_l : dir := { type := 10, nsize := 1, ino := 4, name := [108] }

/-- An image whose root holds `k` symlinks named by the letters from `a` on,
each with the next letter as its target, and a file named by the letter after
them. -/
def chain_img (k : Nat) : List Nat :=
  ((List.range k).map fun i =>
    mkDirent 1 1 (i + 2) 10 [97 + i] ++ mkInode (i + 2) 1 1 0 1 0 [98 + i]).flatten ++
  mkDirent 1 1 (k + 2) 8 [97 + k] ++ mkInode (k + 2) 1 0 0 0 0 []

/-- The macro `TYPEINDEX`: `((mode) >> 12) & 0x0f`. -/
def TYPEINDEX (mode : Nat) : Nat := (mode >>> 12) &&& 0x0f

/-- The macro `TYPECHAR`: the character of `"0pcCd?bB-?l?s???"` at
`TYPEINDEX(mode)`. -/
def TYPECHAR (mode : Nat) : Char :=
  ['0', 'p', 'c', 'C', 'd', '?', 'b', 'B', '-', '?', 'l', '?', 's', '?', '?', '?'].getD
    (TYPEINDEX mode) '?'

/-- The table `SBIT`: `S_ISUID` 04000, `S_ISGID` 02000, `S_ISVTX` 01000 of
`<sys/stat.h>`. -/
def SBIT : List Nat := [0, 0, 0o4000, 0, 0, 0o2000, 0, 0, 0o1000]

/-- The table `MBIT`: `S_IRUSR` 0400 down to `S_IXOTH` 01 of `<sys/stat.h>`. -/
def MBIT : List Nat := [0o400, 0o200, 0o100, 0o40, 0o20, 0o10, 0o4, 0o2, 0o1]

/-- The string `MODE1`. -/
def MODE1 : List Char := ['r', 'w', 'x', 'r', 'w', 'x', 'r', 'w', 'x']

/-- The string `MODE0`. -/
def MODE0 : List Char := ['-', '-', '-', '-', '-', '-', '-', '-', '-']

/-- The string `SMODE1`. -/
def SMODE1 : List Char := ['.', '.', 's', '.', '.', 's', '.', '.', 't']

/-- The string `SMODE0`. -/
def SMODE0 : List Char := ['.', '.', 'S', '.', '.', 'S', '.', '.', 'T']

/-- The character that pass `i` of the loop of `mode_string` stores in
`buf[i + 1]`. -/
def mode_char (mode i : Nat) : Char :=
  if mode &&& SBIT.getD i 0 ≠ 0 then
    if mode &&& MBIT.getD i 0 ≠ 0 then SMODE1.getD i '.' else SMODE0.getD i '.'
  else
    if mode &&& MBIT.getD i 0 ≠ 0 then MODE1.getD i '-' else MODE0.getD i '-'

/-- The array `static char buf[12]` when `mode_string` returns: `buf[0]` and
the nine stores of the loop; `buf[10]` and `buf[11]` are never written and keep
the zero of static storage. -/
def mode_string_buf (mode : Nat) : List Char :=
  (List.range 9).foldl (fun buf i => buf.set (i + 1) (mode_char mode i))
    ((List.replicate 12 (Char.ofNat 0)).set 0 (TYPECHAR mode))

/-- The function `mode_string`: the C string at `buf`, for the bit pattern
`mode`. -/
def mode_string (mode : Nat) : List Char :=
  (mode_string_buf mode).takeWhile fun c => c != Char.ofNat 0

/-- The permission character of position `i` (0 to 8, user/group/other r, w,
x) as the claim words it: the letter of the bit when bit `8 - i` is set and a
dash when it is clear, but in the execute positions `s`, `s`, `t` when the
setuid, setgid or sticky bit is set with the execute bit and `S`, `S`, `T`
when it is set without. -/
def perm_char_spec (mode i : Nat) : Char :=
  if i % 3 = 2 ∧ mode.testBit (11 - i / 3) = true then
    if mode.testBit (8 - i) then ['s', 's', 't'].getD (i / 3) '?'
    else ['S', 'S', 'T'].getD (i / 3) '?'
  else if mode.testBit (8 - i) then ['r', 'w', 'x'].getD (i % 3) '?' else '-'

/-- The file-type character of the claim for the value of bits 12..15: `-`
regular (8), `d` directory (4), `l` symlink (10), `c` char (2), `b` block (6),
`p` fifo (1), `s` socket (12); the claim names no other. -/
def type_char_spec (k : Nat) : Option Char :=
  if k = 8 then some '-' else if k = 4 then some 'd' else if k = 10 then some 'l'
  else if k = 2 then some 'c' else if k = 6 then some 'b' else if k = 1 then some 'p'
  else if k = 12 then some 's' else none

/-- An image whose root holds the symlink `l` -> 2, the one revision of
inode 2 having `isize` 1024, `dsize` 1 and the payload "a". -/
def long_link_img : List Nat := mkDirent 1 1 2 10 [108] ++ mkInode 2 1 1024 0 1 0 [97]

/-- Two dirent revisions of parent 1, v1 `a` -> 2 and v2 `b` -> 3, with one
padding word between the two nodes. -/
def gap_img : List Nat :=
  mkDirent 1 1 2 8 [97] ++ [0xFF, 0xFF, 0xFF, 0xFF] ++ mkDirent 1 2 3 8 [98]

/-- The variables of `collectdir` on `gap_img` once both dirents have been
applied, with the scan at `n`. -/
def gap_state (n : Nat) : cd_state :=
  { n := n, lr := 48, mp := some 48, vmint := UINT32_MAX, vmaxt := 2, vmax := UINT32_MAX, vcur := 2,
    d := [{ type := 8, nsize := 1, ino := 2, name := [97] },
          { type := 8, nsize := 1, ino := 3, name := [98] }] }

/-- An rtime inode revision of 6 bytes with the stream `rtime_ex`. -/
def rtime_ok_node : jffs2_raw_inode :=
  { ino := 2, version := 1, isize := 6, offset := 0, csize := 10, dsize := 6,
    compr := 0x02, data := Mem.ofList rtime_ex }

/-! # Properties

## Directory state -/

theorem putdir_add_first (n : jffs2_raw_dirent) (pre : List dir) (x : dir) (post : List dir)
    (hx : sameName n x = true) (hpre : ∀ y ∈ pre, sameName n y = false) :
    putdir_add n (pre ++ x :: post) = pre ++ { x with type := n.type, ino := n.ino } :: post := by
  induction pre with
  | nil => simp [putdir_add, hx]
  | cons y ys ih =>
    have hy : sameName n y = false := hpre y (List.mem_cons_self _ _)
    have hys : ∀ z ∈ ys, sameName n z = false := fun z hz => hpre z (List.mem_cons_of_mem _ hz)
    simp [putdir_add, hy, ih hys]

theorem putdir_add_absent (n : jffs2_raw_dirent) (d : List dir)
    (h : ∀ y ∈ d, sameName n y = false) : putdir_add n d = d ++ [newdir n] := by
  induction d with
  | nil => simp [putdir_add]
  | cons y ys ih =>
    have hy : sameName n y = false := h y (List.mem_cons_self _ _)
    have hys : ∀ z ∈ ys, sameName n z = false := fun z hz => h z (List.mem_cons_of_mem _ hz)
    simp [putdir_add, hy, ih hys]

theorem first_match_split (n : jffs2_raw_dirent) (d : List dir)
    (h : ∃ y ∈ d, sameName n y = true) :
    ∃ pre x post, d = pre ++ x :: post ∧ sameName n x = true ∧
      ∀ y ∈ pre, sameName n y = false := by
  induction d with
  | nil => simp at h
  | cons y ys ih =>
    by_cases hy : sameName n y = true
    · exact ⟨[], y, ys, rfl, hy, by simp⟩
    · have hy2 : sameName n y = false := by simpa using hy
      obtain ⟨z, hz, hzn⟩ := h
      have hz2 : z ∈ ys := by
        rcases List.mem_cons.1 hz with rfl | hz2
        · exact absurd hzn hy
        · exact hz2
      obtain ⟨pre, x, post, hd, hx, hpre⟩ := ih ⟨z, hz2, hzn⟩
      refine ⟨y :: pre, x, post, by simp [hd], hx, ?_⟩
      intro w hw
      rcases List.mem_cons.1 hw with rfl | hw2
      · exact hy2
      · exact hpre w hw2

theorem putdir_del_absent (n : jffs2_raw_dirent) (d : List dir)
    (h : ∀ y ∈ d, sameName n y = false) : putdir_del n d = d := by
  induction d with
  | nil => simp [putdir_del]
  | cons y ys ih =>
    have hy : sameName n y = false := h y (List.mem_cons_self _ _)
    have hys : ∀ z ∈ ys, sameName n z = false := fun z hz => h z (List.mem_cons_of_mem _ hz)
    simp [putdir_del, hy, ih hys]

theorem sameName_iff_key (n : jffs2_raw_dirent) (x : dir) :
    sameName n x = true ↔ dirKey x = (n.nsize, n.name.take n.nsize) := by
  unfold sameName dirKey
  simp only [Bool.and_eq_true, beq_iff_eq, Prod.mk.injEq]
  constructor
  · rintro ⟨h1, h2⟩
    exact ⟨h1.symm, by rw [← h1, h2]⟩
  · rintro ⟨h1, h2⟩
    exact ⟨h1.symm, by rw [← h2, h1]⟩

theorem sameName_congr (n : jffs2_raw_dirent) (x y : dir) (h : dirKey x = dirKey y) :
    sameName n x = sameName n y := by
  rw [Bool.eq_iff_iff, sameName_iff_key, sameName_iff_key, h]

theorem putdir_del_filter (n : jffs2_raw_dirent) (d : List dir) (hu : uniqueNames d) :
    putdir_del n d = d.filter fun x => !sameName n x := by
  induction d with
  | nil => simp [putdir_del]
  | cons y ys ih =>
    have hu2 : uniqueNames ys := by
      unfold uniqueNames at hu ⊢
      simp only [List.map_cons, List.nodup_cons] at hu
      exact hu.2
    by_cases hy : sameName n y = true
    · have hrest : ∀ z ∈ ys, sameName n z = false := by
        intro z hz
        by_contra hc
        have hc2 : sameName n z = true := by simpa using hc
        have hk : dirKey z = dirKey y := by
          rw [(sameName_iff_key n z).1 hc2, (sameName_iff_key n y).1 hy]
        unfold uniqueNames at hu
        simp only [List.map_cons, List.nodup_cons] at hu
        exact hu.1 (hk ▸ List.mem_map_of_mem dirKey hz)
      have hf : ys.filter (fun x => !sameName n x) = ys := by
        apply List.filter_eq_self.2
        intro z hz
        simp [hrest z hz]
      simp [putdir_del, hy, hf]
    · have hy2 : sameName n y = false := by simpa using hy
      simp [putdir_del, hy2, ih hu2]

theorem putdir_add_keys (n : jffs2_raw_dirent) (d : List dir)
    (h : ∃ y ∈ d, sameName n y = true) : (putdir_add n d).map dirKey = d.map dirKey := by
  induction d with
  | nil => simp at h
  | cons y ys ih =>
    by_cases hy : sameName n y = true
    · simp [putdir_add, hy, dirKey]
    · have hy2 : sameName n y = false := by simpa using hy
      obtain ⟨z, hz, hzn⟩ := h
      have hz2 : z ∈ ys := by
        rcases List.mem_cons.1 hz with rfl | hz2
        · exact absurd hzn hy
        · exact hz2
      simp [putdir_add, hy2, ih ⟨z, hz2, hzn⟩]

theorem dirKey_newdir (n : jffs2_raw_dirent) :
    dirKey (newdir n) = (n.nsize, n.name.take n.nsize) := by
  simp [dirKey, newdir, List.take_take]

theorem putdir_del_sublist (n : jffs2_raw_dirent) (d : List dir) :
    (putdir_del n d).Sublist d := by
  induction d with
  | nil => simp [putdir_del]
  | cons y ys ih =>
    by_cases hy : sameName n y = true
    · simp [putdir_del, hy]
    · have hy2 : sameName n y = false := by simpa using hy
      simp [putdir_del, hy2, ih]

theorem putdir_unique (d : List dir) (n : jffs2_raw_dirent) (hu : uniqueNames d) :
    uniqueNames (putdir d n) := by
  unfold putdir
  split
  · by_cases h : ∃ y ∈ d, sameName n y = true
    · unfold uniqueNames
      rw [putdir_add_keys n d h]
      exact hu
    · have h2 : ∀ y ∈ d, sameName n y = false := by
        intro y hy
        by_contra hc
        exact h ⟨y, hy, by simpa using hc⟩
      rw [putdir_add_absent n d h2]
      unfold uniqueNames at hu ⊢
      rw [List.map_append, List.map_singleton, List.nodup_append]
      refine ⟨hu, List.nodup_singleton _, ?_⟩
      rw [List.disjoint_singleton, dirKey_newdir]
      intro hmem
      obtain ⟨y, hy, hk⟩ := List.mem_map.1 hmem
      have := (sameName_iff_key n y).2 hk
      rw [h2 y hy] at this
      exact Bool.noConfusion this
  · exact List.Nodup.sublist ((putdir_del_sublist n d).map dirKey) hu

theorem putdir_add_mem (n : jffs2_raw_dirent) (d : List dir) :
    ∃ y ∈ putdir_add n d, sameName n y = true := by
  induction d with
  | nil =>
    refine ⟨newdir n, by simp [putdir_add], ?_⟩
    rw [sameName_iff_key, dirKey_newdir]
  | cons y ys ih =>
    by_cases hy : sameName n y = true
    · refine ⟨{ y with type := n.type, ino := n.ino }, by simp [putdir_add, hy], ?_⟩
      rw [sameName_iff_key] at hy ⊢
      exact hy
    · have hy2 : sameName n y = false := by simpa using hy
      obtain ⟨z, hz, hzn⟩ := ih
      exact ⟨z, by simp [putdir_add, hy2, hz], hzn⟩

theorem putdir_add_idem (n : jffs2_raw_dirent) (d : List dir) :
    putdir_add n (putdir_add n d) = putdir_add n d := by
  induction d with
  | nil =>
    have h : sameName n (newdir n) = true := by rw [sameName_iff_key, dirKey_newdir]
    simp only [putdir_add, h, if_true]
    rfl
  | cons y ys ih =>
    by_cases hy : sameName n y = true
    · have h : sameName n { y with type := n.type, ino := n.ino } = true := by
        rw [sameName_iff_key] at hy ⊢
        exact hy
      simp [putdir_add, hy, h]
    · have hy2 : sameName n y = false := by simpa using hy
      simp [putdir_add, hy2, ih]

theorem sameName_false_iff (n : jffs2_raw_dirent) (x : dir) :
    sameName n x = false ↔ dirKey x ≠ direntKey n := by
  rw [← Bool.not_eq_true, sameName_iff_key]
  rfl

/-- C5: for a dirent revision `n` with nonzero target inode, if the directory
state `d` holds a record of the same name (length and bytes), `putdir d n` is
`d` with the file-type tag and target inode of the first such record replaced
by those of `n`, every other record and the order unchanged; if `d` holds no
such record, `putdir d n` is `d` with the new record
`{n.name, n.nsize, n.type, n.ino}` appended at the end. -/
theorem putdir_nonzero_ino (d : List dir) (n : jffs2_raw_dirent) (h : n.ino ≠ 0) :
    ((∃ y ∈ d, dirKey y = direntKey n) →
      ∃ pre x post, d = pre ++ x :: post ∧ dirKey x = direntKey n ∧
        (∀ y ∈ pre, dirKey y ≠ direntKey n) ∧
        putdir d n = pre ++ { x with type := n.type, ino := n.ino } :: post) ∧
    ((∀ y ∈ d, dirKey y ≠ direntKey n) →
      putdir d n = d ++ [{ type := n.type, nsize := n.nsize, ino := n.ino,
                           name := n.name.take n.nsize }]) := by
  constructor
  · rintro ⟨y, hy, hk⟩
    obtain ⟨pre, x, post, hd, hx, hpre⟩ :=
      first_match_split n d ⟨y, hy, (sameName_iff_key n y).2 hk⟩
    refine ⟨pre, x, post, hd, (sameName_iff_key n x).1 hx, ?_, ?_⟩
    · intro z hz
      exact (sameName_false_iff n z).1 (hpre z hz)
    · rw [putdir, if_pos h, hd]
      exact putdir_add_first n pre x post hx hpre
  · intro hno
    rw [putdir, if_pos h]
    exact putdir_add_absent n d fun y hy => (sameName_false_iff n y).2 (hno y hy)

/-- C6: for a directory state `d` with unique names and a dirent revision `n`
with target inode 0, `putdir d n` holds no record named as `n`, and holds
every other record of `d` unchanged and in the same order; when `d` has no
record named as `n` (for instance when `d` is empty), `putdir d n = d`. -/
theorem putdir_zero_ino (d : List dir) (n : jffs2_raw_dirent) (hu : uniqueNames d)
    (h : n.ino = 0) :
    (∀ y ∈ putdir d n, dirKey y ≠ direntKey n) ∧
    putdir d n = d.filter (fun y => decide (dirKey y ≠ direntKey n)) ∧
    ((∀ y ∈ d, dirKey y ≠ direntKey n) → putdir d n = d) ∧
    putdir [] n = [] := by
  have hf : putdir d n = d.filter (fun y => decide (dirKey y ≠ direntKey n)) := by
    rw [putdir, if_neg (by simp [h]), putdir_del_filter n d hu]
    apply List.filter_congr
    intro x _
    by_cases hx : sameName n x = true
    · have := (sameName_iff_key n x).1 hx
      simp [hx, this, direntKey]
    · have hx2 : sameName n x = false := by simpa using hx
      have := (sameName_false_iff n x).1 hx2
      simp [hx2, this]
  refine ⟨?_, hf, ?_, ?_⟩
  · intro y hy
    rw [hf] at hy
    simpa using (List.mem_filter.1 hy).2
  · intro hno
    rw [putdir, if_neg (by simp [h])]
    exact putdir_del_absent n d fun y hy => (sameName_false_iff n y).2 (hno y hy)
  · simp [putdir, h, putdir_del]

/-- C7 (dirent idempotence): for a directory state `d` with unique names and
any dirent revision `n`, adding or deleting, applying `n` twice is the same as
applying it once. -/
theorem putdir_idempotent (d : List dir) (n : jffs2_raw_dirent) (hu : uniqueNames d) :
    putdir (putdir d n) n = putdir d n := by
  unfold putdir
  split
  · exact putdir_add_idem n d
  · rw [putdir_del_filter n d hu]
    apply putdir_del_absent
    intro y hy
    simpa using (List.mem_filter.1 hy).2

theorem putdir_nonzero_ino_witness :
    ex_add_c.ino ≠ 0 ∧
    putdir ex_dir ex_add_c = ex_dir ++ [{ type := 4, nsize := 1, ino := 7, name := [99] }] :=
  ⟨by decide, (putdir_nonzero_ino ex_dir ex_add_c (by decide)).2 (by decide)⟩

theorem putdir_zero_ino_witness :
    uniqueNames ex_dir ∧ ex_del_a.ino = 0 ∧
    putdir ex_dir ex_del_a = [{ type := 8, nsize := 1, ino := 3, name := [98] }] :=
  ⟨by unfold uniqueNames; decide, by decide,
    (putdir_zero_ino ex_dir ex_del_a (by unfold uniqueNames; decide) (by decide)).2.1⟩

theorem putdir_idempotent_witness :
    uniqueNames ex_dir ∧ putdir (putdir ex_dir ex_del_a) ex_del_a = putdir ex_dir ex_del_a :=
  ⟨by unfold uniqueNames; decide, putdir_idempotent ex_dir ex_del_a (by unfold uniqueNames; decide)⟩

/-- C3: for a buffer `b` of size `bsize`, any prior result size `r` and an
inode revision `n` with compression none or zero that passes the size check
of `putblock`: the call returns, the bytes `b[offset .. offset+dsize)` are the
first `dsize` payload bytes of the node (for none) or zero (for zero), every
byte at an index in `[r, isize)` outside that range is zero, every other byte
is unchanged, and the result size is `isize`.  Applied to the two revisions of
scenario 2 from result size 0, the buffer holds the 11 bytes "hello world". -/
theorem putblock_none_zero (uncompress : Mem → Nat → Nat → List Nat) (b : Mem) (bsize r : Nat)
    (n : jffs2_raw_inode) (hc : n.compr = JFFS2_COMPR_NONE ∨ n.compr = JFFS2_COMPR_ZERO)
    (hi : n.isize ≤ bsize) (hd : n.offset + n.dsize ≤ bsize) :
    (∃ b1, putblock uncompress b bsize r n = .ok (b1, n.isize) ∧
      (∀ i, n.offset ≤ i → i < n.offset + n.dsize →
        b1 i = if n.compr = JFFS2_COMPR_NONE then n.data (i - n.offset) else 0) ∧
      (∀ i, r ≤ i → i < n.isize → ¬ (n.offset ≤ i ∧ i < n.offset + n.dsize) → b1 i = 0) ∧
      (∀ i, ¬ (n.offset ≤ i ∧ i < n.offset + n.dsize) → ¬ (r ≤ i ∧ i < n.isize) →
        b1 i = b i)) ∧
    (∀ b0 : Mem, ∃ b1 b2,
      putblock uncompress b0 16384 0 (inodeAt (Mem.ofList hello_img) 0) = .ok (b1, 5) ∧
      putblock uncompress b1 16384 5 (inodeAt (Mem.ofList hello_img) 76) = .ok (b2, 11) ∧
      Mem.toList b2 11 = [104, 101, 108, 108, 111, 32, 119, 111, 114, 108, 100]) := by
  constructor
  · have hfit : ¬ (n.isize > bsize ∨ n.offset + n.dsize > bsize) := by omega
    rcases hc with hc | hc
    · refine ⟨memcpy (if r < n.isize then bzero b r (n.isize - r) else b) n.offset n.data n.dsize,
        ?_, ?_, ?_, ?_⟩
      · simp [putblock, hfit, hc, JFFS2_COMPR_NONE, JFFS2_COMPR_ZLIB]
      · intro i h1 h2
        simp [memcpy, h1, h2, hc]
      · intro i h1 h2 h3
        have h4 : r < n.isize := by omega
        simp only [memcpy, if_neg h3, if_pos h4, bzero]
        rw [if_pos]
        omega
      · intro i h1 h2
        simp only [memcpy, if_neg h1]
        split
        · simp only [bzero]
          rw [if_neg]
          omega
        · rfl
    · refine ⟨bzero (if r < n.isize then bzero b r (n.isize - r) else b) n.offset n.dsize,
        ?_, ?_, ?_, ?_⟩
      · simp [putblock, hfit, hc, JFFS2_COMPR_NONE, JFFS2_COMPR_ZLIB, JFFS2_COMPR_ZERO]
      · intro i h1 h2
        simp [bzero, h1, h2, hc, JFFS2_COMPR_NONE, JFFS2_COMPR_ZERO]
      · intro i h1 h2 h3
        have h4 : r < n.isize := by omega
        simp only [if_pos h4, bzero, if_neg h3]
        rw [if_pos]
        omega
      · intro i h1 h2
        simp only [bzero, if_neg h1]
        split
        · simp only [bzero]
          rw [if_neg]
          omega
        · rfl
  · intro b0
    refine ⟨_, _, rfl, rfl, ?_⟩
    rfl

theorem putblock_none_zero_witness :
    (hello_v2.compr = JFFS2_COMPR_NONE ∨ hello_v2.compr = JFFS2_COMPR_ZERO) ∧
    hello_v2.isize ≤ 16384 ∧ hello_v2.offset + hello_v2.dsize ≤ 16384 ∧
    ∃ b1, putblock no_zlib (Mem.ofList [104, 101, 108, 108, 111]) 16384 5 hello_v2 =
        .ok (b1, hello_v2.isize) ∧
      (∀ i, hello_v2.offset ≤ i → i < hello_v2.offset + hello_v2.dsize →
        b1 i = if hello_v2.compr = JFFS2_COMPR_NONE then hello_v2.data (i - hello_v2.offset)
          else 0) ∧
      (∀ i, 5 ≤ i → i < hello_v2.isize →
        ¬ (hello_v2.offset ≤ i ∧ i < hello_v2.offset + hello_v2.dsize) → b1 i = 0) ∧
      (∀ i, ¬ (hello_v2.offset ≤ i ∧ i < hello_v2.offset + hello_v2.dsize) →
        ¬ (5 ≤ i ∧ i < hello_v2.isize) → b1 i = Mem.ofList [104, 101, 108, 108, 111] i) :=
  ⟨by decide, by decide, by decide,
    (putblock_none_zero no_zlib (Mem.ofList [104, 101, 108, 108, 111]) 16384 5 hello_v2
      (by decide) (by decide) (by decide)).1⟩

/-! ## The rtime decompressor -/

theorem toList_length (b : Mem) (len : Nat) : (Mem.toList b len).length = len := by
  simp [Mem.toList]

theorem toList_succ (b : Mem) (len : Nat) : Mem.toList b (len + 1) = Mem.toList b len ++ [b len] := by
  simp [Mem.toList, List.range_succ]

theorem toList_congr (b c : Mem) (len : Nat) (h : ∀ i, i < len → b i = c i) :
    Mem.toList b len = Mem.toList c len := by
  unfold Mem.toList
  apply List.map_congr_left
  intro i hi
  exact h i (List.mem_range.1 hi)

theorem toList_getD (b : Mem) (len i : Nat) (h : i < len) : (Mem.toList b len).getD i 0 = b i := by
  unfold Mem.toList
  rw [List.getD_eq_getElem _ _ (by simpa using h)]
  simp

theorem toList_update (b : Mem) (len v : Nat) :
    Mem.toList (Function.update b len v) (len + 1) = Mem.toList b len ++ [v] := by
  rw [toList_succ]
  congr 1
  · apply toList_congr
    intro i hi
    simp [Function.update, Nat.ne_of_lt hi]
  · simp

/-- The byte-by-byte loop follows the single copy rule of the reference
decoder, and leaves the bytes beyond the new `outpos` alone. -/
theorem rtime_copy_spec (rep : Nat) : ∀ (out : Mem) (outpos b : Nat), b < outpos →
    (rtime_copy rep out outpos b).2 = outpos + rep ∧
    Mem.toList (rtime_copy rep out outpos b).1 (outpos + rep) =
      rtime_ref_emit rep b (Mem.toList out outpos) ∧
    ∀ i, outpos + rep ≤ i → (rtime_copy rep out outpos b).1 i = out i := by
  induction rep with
  | zero =>
    intro out outpos b _
    simp [rtime_copy, rtime_ref_emit]
  | succ r ih =>
    intro out outpos b hb
    obtain ⟨h1, h2, h3⟩ := ih (Function.update out outpos (out b)) (outpos + 1) (b + 1) (by omega)
    simp only [rtime_copy, rtime_ref_emit]
    refine ⟨by rw [h1]; omega, ?_, ?_⟩
    · have e : outpos + (r + 1) = outpos + 1 + r := by omega
      rw [e, h2, toList_update, toList_getD out outpos b hb]
    · intro i hi
      rw [h3 i (by omega)]
      simp [Function.update, show i ≠ outpos by omega]

/-- When source and destination do not overlap, the block copy stores the same
bytes as the byte-by-byte loop. -/
theorem memcpy_eq_rtime_copy (rep : Nat) : ∀ (out : Mem) (outpos b : Nat), b + rep ≤ outpos →
    memcpy out outpos (fun j => out (b + j)) rep = (rtime_copy rep out outpos b).1 := by
  induction rep with
  | zero =>
    intro out outpos b _
    funext i
    simp [memcpy, rtime_copy]
  | succ r ih =>
    intro out outpos b hb
    simp only [rtime_copy]
    rw [← ih (Function.update out outpos (out b)) (outpos + 1) (b + 1) (by omega)]
    funext i
    simp only [memcpy]
    by_cases h1 : outpos + 1 ≤ i ∧ i < outpos + 1 + r
    · rw [if_pos h1, if_pos (by omega)]
      have e : b + 1 + (i - (outpos + 1)) = b + (i - outpos) := by omega
      rw [e]
      simp [Function.update, show b + (i - outpos) ≠ outpos by omega]
    · rw [if_neg h1]
      by_cases h2 : i = outpos
      · subst h2
        simp
      · rw [if_neg (by omega)]
        simp [Function.update, h2]

theorem toShort_small (x : Nat) (h : x < 32768) : toShort x = (x : Int) := by
  unfold toShort
  have e : x % 65536 = x := Nat.mod_eq_of_lt (by omega)
  rw [e, if_pos h]

theorem rtime_body_sim (data_in out0 : Mem) (s : rtime_state) (t : rtime_ref_state)
    (h : rtime_sim out0 s t) (hpos : s.outpos < 32767) :
    ∃ s1, rtime_body data_in s = some s1 ∧ rtime_sim out0 s1 (rtime_ref_step data_in t) ∧
      s.outpos < s1.outpos := by
  obtain ⟨out, positions, outpos, pos⟩ := s
  obtain ⟨tout, tpos, inp⟩ := t
  obtain ⟨h1, h2, h3, h4, h5⟩ := h
  simp only at h1 h2 h3 h4 h5 hpos
  subst h4
  have hlen : tout.length = outpos := by rw [← h1, toList_length]
  have hupd : Mem.toList (Function.update out outpos (rd8 data_in pos)) (outpos + 1)
      = tout ++ [rd8 data_in pos] := by
    rw [toList_update, h1]
  have hposn : ∀ v, Function.update positions (rd8 data_in pos) (toShort (outpos + 1)) v =
      ((Function.update tpos (rd8 data_in pos) (tout.length + 1) v : Nat) : Int) := by
    intro v
    rw [hlen]
    by_cases hv : v = rd8 data_in pos
    · subst hv
      simp [toShort_small (outpos + 1) (by omega)]
    · simp [Function.update, hv, h2 v]
  have hb : tpos (rd8 data_in pos) < outpos + 1 := Nat.lt_succ_of_le (h3 _)
  obtain ⟨c1, c2, c3⟩ := rtime_copy_spec (rd8 data_in (pos + 1))
    (Function.update out outpos (rd8 data_in pos)) (outpos + 1) (tpos (rd8 data_in pos)) hb
  have hrest : ∀ i, outpos + 1 ≤ i → Function.update out outpos (rd8 data_in pos) i = out0 i := by
    intro i hi
    simp [Function.update, show i ≠ outpos by omega, h5 i (by omega)]
  have hple : ∀ k v, Function.update tpos (rd8 data_in pos) (tout.length + 1) v
      ≤ outpos + 1 + k := by
    intro k v
    by_cases hv : v = rd8 data_in pos
    · subst hv
      simp [hlen]
    · simp only [Function.update, hv, dif_neg, not_false_eq_true]
      have := h3 v
      omega
  have hstep : (rtime_ref_step data_in ⟨tout, tpos, pos⟩).out =
      rtime_ref_emit (rd8 data_in (pos + 1)) (tpos (rd8 data_in pos))
        (Mem.toList (Function.update out outpos (rd8 data_in pos)) (outpos + 1)) := by
    rw [hupd]
    rfl
  unfold rtime_body
  simp only
  by_cases hr : rd8 data_in (pos + 1) = 0
  · rw [if_pos hr]
    refine ⟨_, rfl, ⟨?_, hposn, hple 0, rfl, hrest⟩, by simp⟩
    rw [hr, rtime_ref_emit] at hstep
    exact hstep.symm
  · rw [if_neg hr]
    have hneg : ¬ (positions (rd8 data_in pos) < 0) := by
      rw [h2]
      omega
    rw [if_neg hneg]
    have htn : (positions (rd8 data_in pos)).toNat = tpos (rd8 data_in pos) := by
      rw [h2]
      simp
    rw [htn]
    by_cases hbr : positions (rd8 data_in pos) + ((rd8 data_in (pos + 1) : Nat) : Int) ≥
        ((outpos + 1 : Nat) : Int)
    · rw [if_pos hbr]
      refine ⟨_, rfl, ⟨?_, hposn, ?_, rfl, ?_⟩, ?_⟩
      · show Mem.toList (rtime_copy _ _ _ _).1 (rtime_copy _ _ _ _).2 = _
        rw [c1, c2, hstep]
      · show ∀ v, _ ≤ (rtime_copy _ _ _ _).2
        rw [c1]
        exact hple _
      · show ∀ i, (rtime_copy _ _ _ _).2 ≤ i → (rtime_copy _ _ _ _).1 i = out0 i
        rw [c1]
        intro i hi
        rw [c3 i hi]
        exact hrest i (by omega)
      · show outpos < (rtime_copy _ _ _ _).2
        rw [c1]
        omega
    · rw [if_neg hbr]
      have hle : tpos (rd8 data_in pos) + rd8 data_in (pos + 1) ≤ outpos + 1 := by
        rw [h2] at hbr
        omega
      rw [memcpy_eq_rtime_copy _ _ _ _ hle]
      refine ⟨_, rfl, ⟨?_, hposn, ?_, rfl, ?_⟩, ?_⟩
      · show Mem.toList (rtime_copy _ _ _ _).1 (outpos + 1 + rd8 data_in (pos + 1)) = _
        rw [c2, hstep]
      · exact hple _
      · intro i hi
        have hi2 : outpos + 1 + rd8 data_in (pos + 1) ≤ i := hi
        show (rtime_copy _ _ _ _).1 i = out0 i
        rw [c3 i hi2]
        exact hrest i (by omega)
      · show outpos < outpos + 1 + rd8 data_in (pos + 1)
        omega

theorem rtime_loop_sim (data_in out0 : Mem) (destlen : Nat) (hd : destlen ≤ 32767) (fuel : Nat) :
    ∀ (s : rtime_state) (t : rtime_ref_state), rtime_sim out0 s t → destlen - s.outpos ≤ fuel →
      ∃ s1, rtime_loop data_in destlen fuel s = .ok s1 ∧
        Mem.toList s1.cpage_out s1.outpos = rtime_ref_loop data_in destlen fuel t ∧
        destlen ≤ s1.outpos ∧ ∀ i, s1.outpos ≤ i → s1.cpage_out i = out0 i := by
  induction fuel with
  | zero =>
    intro s t h hf
    have hn : ¬ s.outpos < destlen := by omega
    exact ⟨s, by simp [rtime_loop, hn], by simp [rtime_ref_loop, h.out_eq], by omega, h.rest_eq⟩
  | succ f ih =>
    intro s t h hf
    have hlen : t.out.length = s.outpos := by rw [← h.out_eq, toList_length]
    by_cases hlt : s.outpos < destlen
    · obtain ⟨s1, hb, hsim, hgt⟩ := rtime_body_sim data_in out0 s t h (by omega)
      obtain ⟨s2, hl, ho, hge, hr⟩ := ih s1 (rtime_ref_step data_in t) hsim (by omega)
      refine ⟨s2, ?_, ?_, hge, hr⟩
      · simp [rtime_loop, hlt, hb, hl]
      · simp [rtime_ref_loop, hlen, hlt, ho]
    · exact ⟨s, by simp [rtime_loop, hlt], by simp [rtime_ref_loop, hlen, hlt, h.out_eq],
        by omega, h.rest_eq⟩

/-- C9: for every input stream, every initial output buffer and every
`destlen <= 16384`, `jffs2_rtime_decompress` returns, and the bytes it has
produced, `cpage_out[0 .. outpos)`, are the output of the reference decoder of
the spec; the bytes from `outpos` on are untouched.  So the block-copy branch
and the byte-by-byte branch both follow the single copy rule.  On the input
`[0x41,0x00,0x42,0x01]` with `destlen` 3 the output is `[0x41,0x42,0x41]`. -/
theorem rtime_refines_reference (data_in cpage_out : Mem) (srclen destlen : Nat)
    (hd : destlen ≤ 16384) :
    (∃ s, jffs2_rtime_decompress data_in cpage_out srclen destlen = .ok s ∧
      Mem.toList s.cpage_out s.outpos = rtime_reference data_in destlen ∧
      ∀ i, s.outpos ≤ i → s.cpage_out i = cpage_out i) ∧
    (∃ s, jffs2_rtime_decompress (Mem.ofList [0x41, 0x00, 0x42, 0x01]) cpage_out srclen 3 = .ok s ∧
      s.outpos = 3 ∧ Mem.toList s.cpage_out 3 = [0x41, 0x42, 0x41] ∧
      rtime_reference (Mem.ofList [0x41, 0x00, 0x42, 0x01]) 3 = [0x41, 0x42, 0x41]) := by
  constructor
  · have h0 : rtime_sim cpage_out
        { cpage_out := cpage_out, positions := fun _ => 0, outpos := 0, pos := 0 }
        { out := [], pos := fun _ => 0, inp := 0 } :=
      ⟨rfl, fun _ => rfl, fun _ => Nat.le_refl 0, rfl, fun _ _ => rfl⟩
    obtain ⟨s, h1, h2, _, h4⟩ := rtime_loop_sim data_in cpage_out destlen (by omega) destlen _ _ h0
      (Nat.sub_le _ _)
    exact ⟨s, h1, h2, h4⟩
  · exact ⟨_, rfl, rfl, rfl, rfl⟩

theorem rtime_refines_reference_witness :
    6 ≤ 16384 ∧
    ∃ s, jffs2_rtime_decompress (Mem.ofList rtime_ex) (fun _ => 0) 10 6 = .ok s ∧
      Mem.toList s.cpage_out s.outpos = rtime_reference (Mem.ofList rtime_ex) 6 ∧
      ∀ i, s.outpos ≤ i → s.cpage_out i = (fun _ => 0) i :=
  ⟨by decide, (rtime_refines_reference (Mem.ofList rtime_ex) (fun _ => 0) 10 6 (by decide)).1⟩

/-- C10 fails on the code: on the stream `[0x41, 0x05]` with `destlen` 1 the
decompressor, started on a zero buffer, ends with `outpos` 6 and has stored
six bytes `0x41`; called from `putblock` for the last byte of a 16384-byte
buffer (at `b + 16383`) it stores `0x41` at the indices 16383 to 16388 of the
buffer, the last five past its end, so that call of `putblock` is undefined
behaviour. -/
theorem rtime_writes_past_destlen :
    (jffs2_rtime_decompress (Mem.ofList [0x41, 0x05]) (fun _ => 0) 2 1).map
        (fun s => (s.outpos, Mem.toList s.cpage_out 7)) =
      .ok (6, [0x41, 0x41, 0x41, 0x41, 0x41, 0x41, 0]) ∧
    (jffs2_rtime_decompress rtime_overrun_node.data
        (fun i => bzero (fun _ => 0) 0 (rtime_overrun_node.isize - 0)
          (rtime_overrun_node.offset + i)) rtime_overrun_node.csize rtime_overrun_node.dsize).map
        (fun s => (rtime_overrun_node.offset + s.outpos, s.cpage_out 0, s.cpage_out 1,
          s.cpage_out 5, s.cpage_out 6)) =
      .ok (16389, 0x41, 0x41, 0x41, 0) ∧
    (putblock no_zlib (fun _ => 0) 16384 0 rtime_overrun_node).map (fun r => r.2) =
      .undefined := by
  decide

/-- C4 fails on the code: `do_extract` calls `write` with the whole buffer
after every revision.  For the two-revision file of scenario 2 (found by
`find_raw_inode` from version 0, as `visitdir` does) the bytes written are
"hello" followed by "hello world", 16 bytes, while the file materializer gives
the 11 bytes "hello world".  A file with the single revision "hello" is written
as "hello". -/
theorem do_extract_writes_each_revision (buf0 : Mem) :
    find_raw_inode (Mem.ofList hello_img) 152 2 0 4 = .ok (some 0) ∧
    do_extract no_zlib (Mem.ofList hello_img) 152 ex_file_a ' ' (some 0) true buf0 4 =
      .ok (.file [104, 101, 108, 108, 111, 104, 101, 108, 108, 111, 32, 119, 111, 114, 108, 100]) ∧
    materialize no_zlib 16384 [inodeAt (Mem.ofList hello_img) 0, inodeAt (Mem.ofList hello_img) 76]
      (fun _ => 0) 0 = .ok [104, 101, 108, 108, 111, 32, 119, 111, 114, 108, 100] ∧
    do_extract no_zlib (Mem.ofList (hello_img.take 76)) 76 ex_file_a ' ' (some 0) true buf0 4 =
      .ok (.file [104, 101, 108, 108, 111]) :=
  ⟨rfl, rfl, rfl, rfl⟩

/-! ## The directory collector -/

theorem collectdir_scan_unique (o : Mem) (size ino : Nat) (s : cd_state)
    (h : uniqueNames s.d) : uniqueNames (collectdir_scan o size ino s).d := by
  unfold collectdir_scan
  simp only
  split
  · split
    · exact putdir_unique _ _ h
    · exact h
  · exact h

theorem collectdir_wrap_unique (o : Mem) (s s1 : cd_state) (h : uniqueNames s.d)
    (hw : collectdir_wrap o s = some s1) : uniqueNames s1.d := by
  unfold collectdir_wrap at hw
  split at hw
  · split at hw
    · split at hw
      · exact absurd hw (by simp)
      · injection hw with hw
        subst hw
        exact putdir_unique _ _ h
    · injection hw with hw
      subst hw
      exact h
  · injection hw with hw
    subst hw
    exact h

theorem collectdir_loop_unique (o : Mem) (size ino : Nat) (fuel : Nat) :
    ∀ (s : cd_state) (r : List dir), uniqueNames s.d →
      collectdir_loop o size ino fuel s = .ok r → uniqueNames r := by
  induction fuel with
  | zero =>
    intro s r _ h
    simp [collectdir_loop] at h
  | succ f ih =>
    intro s r hu h
    simp only [collectdir_loop] at h
    split at h
    · exact absurd h (by simp)
    · rename_i s1 hw
      have hu1 : uniqueNames s1.d :=
        collectdir_wrap_unique o _ s1 (collectdir_scan_unique o size ino s hu) hw
      split at h
      · exact ih s1 r hu1 h
      · injection h with h
        subst h
        exact hu1

/-- C8: name uniqueness is an invariant of the directory state: if no two
records of `d` have the same name (length and bytes), then no two records of
`putdir d n` have; hence every state that `collectdir`, started from the empty
state, returns has unique names. -/
theorem putdir_keeps_names_unique (d : List dir) (n : jffs2_raw_dirent) (hu : uniqueNames d) :
    uniqueNames (putdir d n) ∧
    ∀ (o : Mem) (size ino fuel : Nat) (r : List dir),
      collectdir o size ino [] fuel = .ok r → uniqueNames r := by
  refine ⟨putdir_unique d n hu, ?_⟩
  intro o size ino fuel r h
  exact collectdir_loop_unique o size ino fuel _ r (by simp [uniqueNames]) h

theorem putdir_keeps_names_unique_witness :
    uniqueNames ex_dir ∧ uniqueNames (putdir ex_dir ex_add_c) ∧
    collectdir (Mem.ofList scenario3_img) 132 1 [] 6 =
      .ok [{ type := 8, nsize := 1, ino := 3, name := [98] }] ∧
    uniqueNames [{ type := 8, nsize := 1, ino := 3, name := [98] }] :=
  have h := putdir_keeps_names_unique ex_dir ex_add_c (by unfold uniqueNames; decide)
  ⟨by unfold uniqueNames; decide, h.1, by decide,
    h.2 (Mem.ofList scenario3_img) 132 1 6 _ (by decide)⟩

/-! ## Evaluations of the two sweeps -/

theorem padded_img_bytes :
    padded_img = [0xFF, 0xFF, 0xFF, 0xFF,
      0x85, 0x19, 0x02, 0xE0, 41, 0, 0, 0, 0, 0, 0, 0,
      1, 0, 0, 0, 1, 0, 0, 0, 2, 0, 0, 0, 0, 0, 0, 0,
      1, 8, 0, 0, 0, 0, 0, 0, 0, 0, 0, 0, 97, 0xFF, 0xFF, 0xFF] := by
  decide

theorem padded_cycle (fuel : Nat) :
    collectdir_loop (Mem.ofList padded_img) 48 1 fuel (padded_state 48) = .timeout ∧
    collectdir_loop (Mem.ofList padded_img) 48 1 fuel (padded_state 0) = .timeout := by
  induction fuel with
  | zero => exact ⟨rfl, rfl⟩
  | succ f ih =>
    have e1 : collectdir_wrap (Mem.ofList padded_img)
        (collectdir_scan (Mem.ofList padded_img) 48 1 (padded_state 48)) =
        some (padded_state 0) := by decide
    have e2 : collectdir_wrap (Mem.ofList padded_img)
        (collectdir_scan (Mem.ofList padded_img) 48 1 (padded_state 0)) =
        some (padded_state 48) := by decide
    have hlt : ∀ n, (padded_state n).vcur < (padded_state n).vmax := by
      intro n
      show 1 < UINT32_MAX
      decide
    constructor
    · rw [collectdir_loop, e1]
      simp only [hlt, if_true]
      exact ih.2
    · rw [collectdir_loop, e2]
      simp only [hlt, if_true]
      exact ih.1

/-- C1 fails on the code: on the image that holds one padding word and then
the single dirent revision v1 `a` -> 2 of parent 1, `collectdir` never
returns, whatever the number of passes allowed: after the dirent is applied,
`lr` is the start of the node, which the scan only reaches through the padding
loop, so the test `lr == n` never holds and `vmax` stays at its initial
value.  Without the padding word the same dirent gives the state `[a -> 2]`, and
the three revisions of scenario 3 give `[b -> 3]`. -/
theorem collectdir_padding_never_returns :
    (∀ fuel, collectdir (Mem.ofList padded_img) 48 1 [] fuel = .timeout) ∧
    collectdir (Mem.ofList (mkDirent 1 1 2 8 [97])) 44 1 [] 2 =
      .ok [{ type := 8, nsize := 1, ino := 2, name := [97] }] ∧
    collectdir (Mem.ofList scenario3_img) 132 1 [] 6 =
      .ok [{ type := 8, nsize := 1, ino := 3, name := [98] }] := by
  refine ⟨?_, by decide, by decide⟩
  intro fuel
  cases fuel with
  | zero => rfl
  | succ f =>
    have e0 : collectdir_wrap (Mem.ofList padded_img)
        (collectdir_scan (Mem.ofList padded_img) 48 1
          { n := 0, lr := 0, mp := none, vmint := UINT32_MAX, vmaxt := 0, vmax := UINT32_MAX,
            vcur := 0, d := [] }) = some (padded_state 48) := by decide
    rw [collectdir, collectdir_loop, e0]
    have hlt : (padded_state 48).vcur < (padded_state 48).vmax := by decide
    simp only [hlt, if_true]
    exact (padded_cycle f).1

theorem max_version_img_bytes :
    max_version_img = [0x85, 0x19, 0x01, 0xE0, 73, 0, 0, 0, 0, 0, 0, 0,
      2, 0, 0, 0, 0xFF, 0xFF, 0xFF, 0xFF, 0xA4, 0x81, 0, 0, 0, 0, 0, 0,
      5, 0, 0, 0, 0, 0, 0, 0, 0, 0, 0, 0, 0, 0, 0, 0,
      0, 0, 0, 0, 5, 0, 0, 0, 5, 0, 0, 0, 0, 0, 0, 0,
      0, 0, 0, 0, 0, 0, 0, 0, 104, 101, 108, 108, 111, 0xFF, 0xFF, 0xFF] := by
  rfl

/-- C2 fails on the code: in the image that holds the single revision of
inode 2 with version `0xFFFFFFFF`, `find_raw_inode` called for inode 2 with
`vcur = 0` returns NULL although that revision has a version above `vcur`: the
candidate is only recorded when `vmint > v`, and `vmint` starts at
`0xFFFFFFFF`.  With `vcur = 0xFFFFFFFE` the test `v == vcur + 1` returns the
same node. -/
theorem find_raw_inode_misses_max_version :
    at_node (Mem.ofList max_version_img) 76 0 = true ∧
    je16_to_cpu (Mem.ofList max_version_img) 2 = JFFS2_NODETYPE_INODE ∧
    node_len (Mem.ofList max_version_img) 0 = 76 ∧
    (inodeAt (Mem.ofList max_version_img) 0).ino = 2 ∧
    (inodeAt (Mem.ofList max_version_img) 0).version = 0xFFFFFFFF ∧
    (∀ fuel, find_raw_inode (Mem.ofList max_version_img) 76 2 0 (fuel + 2) = .ok none) ∧
    find_raw_inode (Mem.ofList max_version_img) 76 2 0xFFFFFFFE 1 = .ok (some 0) := by
  refine ⟨by decide, by decide, by decide, by decide, by decide, ?_, by decide⟩
  intro fuel
  rfl

/-! ## The inode sweep -/

theorem rd8_lt (o : Mem) (p : Nat) : rd8 o p < 256 := Nat.mod_lt _ (by decide)

theorem je32_lt (o : Mem) (p : Nat) : je32_to_cpu o p < 2 ^ 32 := by
  unfold je32_to_cpu
  have h0 := rd8_lt o p
  have h1 := rd8_lt o (p + 1)
  have h2 := rd8_lt o (p + 2)
  have h3 := rd8_lt o (p + 3)
  omega

theorem skip_padding_loop_ge (o : Mem) (size fuel : Nat) :
    ∀ n, n ≤ skip_padding_loop o size fuel n := by
  induction fuel with
  | zero =>
    intro n
    simp [skip_padding_loop]
  | succ f ih =>
    intro n
    simp only [skip_padding_loop]
    split
    · exact Nat.le_trans (by omega) (ih (n + 4))
    · exact Nat.le_refl n

theorem skip_padding_ge (o : Mem) (size n : Nat) : n ≤ skip_padding o size n :=
  skip_padding_loop_ge o size _ n

theorem at_node_lt (o : Mem) (size m : Nat) (h : at_node o size m = true) : m < size := by
  unfold at_node at h
  simp only [Bool.and_eq_true, decide_eq_true_eq] at h
  exact h.1

/-- When every magic-tagged node has a nonzero rounded length the scan from
any offset runs off the image within `size - n` nodes. -/
theorem scan_nodes_total (o : Mem) (size : Nat)
    (hwf : ∀ m, at_node o size m = true → node_len o m ≠ 0) (fuel : Nat) :
    ∀ n, size - n ≤ fuel → ∃ l, scan_nodes o size fuel n = some l := by
  induction fuel with
  | zero =>
    intro n hn
    by_cases h : at_node o size (skip_padding o size n) = true
    · have h1 := at_node_lt o size _ h
      have h2 := skip_padding_ge o size n
      omega
    · exact ⟨[], by simp [scan_nodes, h]⟩
  | succ f ih =>
    intro n hn
    by_cases h : at_node o size (skip_padding o size n) = true
    · have h1 := at_node_lt o size _ h
      have h2 := skip_padding_ge o size n
      have h3 := hwf _ h
      obtain ⟨l, hl⟩ := ih (skip_padding o size n + node_len o (skip_padding o size n)) (by omega)
      exact ⟨skip_padding o size n :: l, by simp [scan_nodes, h, hl]⟩
    · exact ⟨[], by simp [scan_nodes, h]⟩

theorem inode_hit_gt (o : Mem) (ino vcur m : Nat) (h : inode_hit o ino vcur m = true) :
    vcur < je32_to_cpu o (m + 16) := by
  unfold inode_hit at h
  simp only [Bool.and_eq_true, decide_eq_true_eq] at h
  exact h.2

theorem find_raw_inode_scan_node (o : Mem) (size ino vcur : Nat) (s : fri_state)
    (h : at_node o size (skip_padding o size s.n) = true) :
    find_raw_inode_scan o size ino vcur s =
      if inode_hit o ino vcur (skip_padding o size s.n) = true ∧
          je32_to_cpu o (skip_padding o size s.n + 16) = (vcur + 1) % 2 ^ 32 then
        .inl (some (skip_padding o size s.n))
      else .inr (fri_next o ino vcur (skip_padding o size s.n) s) := by
  unfold find_raw_inode_scan
  simp only [h, if_true, fri_next, inode_hit, Bool.and_eq_true, beq_iff_eq, decide_eq_true_eq]

theorem find_raw_inode_scan_end (o : Mem) (size ino vcur : Nat) (s : fri_state)
    (h : at_node o size (skip_padding o size s.n) = false) :
    find_raw_inode_scan o size ino vcur s = .inr { s with n := 0 } := by
  unfold find_raw_inode_scan
  simp [h]

theorem fri_end (o : Mem) (size ino vcur : Nat) (s : fri_state) (pre : List Nat)
    (hinv : fri_inv o ino vcur pre s)
    (hn : at_node o size (skip_padding o size s.n) = false) (k : Nat) :
    ∃ r, find_raw_inode_loop o size ino vcur (k + 1) s = .ok r ∧ fri_post o ino vcur pre r := by
  have hmp : ∀ m, s.mp = some m → vcur < s.vmint ∧ is_next_revision o ino vcur pre m := by
    intro m hm
    obtain ⟨p1, p2, hp, hh, hv, hlt⟩ := hinv.mp_some m hm
    refine ⟨by rw [← hv]; exact inode_hit_gt o ino vcur m hh, p1, p2, hp, hh, ?_, ?_⟩
    · intro x hx hxh
      rw [hv]
      exact hlt x hx hxh
    · intro x hx hxh
      rw [hv]
      exact (hinv.seen x (by rw [hp]; simp [hx]) hxh).1
  simp only [find_raw_inode_loop, find_raw_inode_body, find_raw_inode_scan_end o size ino vcur s hn,
    find_raw_inode_wrap, if_true]
  by_cases hc : vcur < s.vmaxt ∧ vcur < s.vmint
  · rw [if_pos hc]
    refine ⟨s.mp, rfl, ?_⟩
    cases hm : s.mp with
    | none => exact Or.inl ⟨rfl, hinv.mp_none hm⟩
    | some m => exact Or.inr ⟨m, rfl, (hmp m hm).2⟩
  · rw [if_neg hc]
    have hle : ¬ vcur < s.vmaxt := by
      intro hlt
      cases hm : s.mp with
      | none =>
        have := hinv.nohit (hinv.mp_none hm)
        omega
      | some m => exact hc ⟨hlt, (hmp m hm).1⟩
    simp only [hle, if_false]
    refine ⟨none, rfl, Or.inl ⟨rfl, ?_⟩⟩
    intro x hx
    by_contra hxh
    exact hle (hinv.seen x hx (by simpa using hxh)).2.2

theorem fri_inv_next (o : Mem) (ino vcur m : Nat) (s : fri_state) (pre : List Nat)
    (hinv : fri_inv o ino vcur pre s)
    (hne : inode_hit o ino vcur m = true → je32_to_cpu o (m + 16) ≠ (vcur + 1) % 2 ^ 32)
    (hmax : inode_hit o ino vcur m = true → je32_to_cpu o (m + 16) ≠ UINT32_MAX) :
    fri_inv o ino vcur (pre ++ [m]) (fri_next o ino vcur m s) := by
  have hb := je32_lt o (m + 16)
  have hU : UINT32_MAX = 2 ^ 32 - 1 := rfl
  by_cases hh : inode_hit o ino vcur m = true
  · have hgt := inode_hit_gt o ino vcur m hh
    have hm1 := hmax hh
    have hmint := hinv.vmint_le
    have hvmaxt : vcur < (fri_next o ino vcur m s).vmaxt := by
      simp only [fri_next, hh, true_and]
      split <;> omega
    by_cases hlt : s.vmint > je32_to_cpu o (m + 16)
    · -- the node becomes the candidate
      have e1 : (fri_next o ino vcur m s).vmint = je32_to_cpu o (m + 16) := by
        simp [fri_next, hh, hlt]
      have e2 : (fri_next o ino vcur m s).mp = some m := by
        simp [fri_next, hh, hlt]
      refine ⟨?_, ?_, ?_, ?_, ?_, hinv.vmax_eq⟩
      · intro x hx hxh
        rw [e1]
        rcases List.mem_append.1 hx with hx | hx
        · have := hinv.seen x hx hxh
          exact ⟨by omega, this.2.1, hvmaxt⟩
        · have hx2 : x = m := by simpa using hx
          rw [hx2]
          exact ⟨Nat.le_refl _, hne hh, hvmaxt⟩
      · intro hno
        have := hno m (by simp)
        rw [hh] at this
        exact absurd this (by simp)
      · intro hmp
        rw [e2] at hmp
        exact absurd hmp (by simp)
      · intro m1 hm1s
        rw [e2] at hm1s
        injection hm1s with hm1s
        subst hm1s
        rw [e1]
        refine ⟨pre, [], rfl, hh, rfl, ?_⟩
        intro x hx hxh
        have := (hinv.seen x hx hxh).1
        omega
      · rw [e1]
        omega
    · -- the candidate stays
      have e1 : (fri_next o ino vcur m s).vmint = s.vmint := by
        simp [fri_next, hh, hlt]
      have e2 : (fri_next o ino vcur m s).mp = s.mp := by
        simp [fri_next, hh, hlt]
      have hmpne : ∃ m1, s.mp = some m1 := by
        cases hsm : s.mp with
        | none =>
          have h0 := (hinv.nohit (hinv.mp_none hsm)).2
          omega
        | some m1 => exact ⟨m1, rfl⟩
      refine ⟨?_, ?_, ?_, ?_, ?_, hinv.vmax_eq⟩
      · intro x hx hxh
        rw [e1]
        rcases List.mem_append.1 hx with hx | hx
        · have := hinv.seen x hx hxh
          exact ⟨this.1, this.2.1, hvmaxt⟩
        · have hx2 : x = m := by simpa using hx
          rw [hx2]
          exact ⟨by omega, hne hh, hvmaxt⟩
      · intro hno
        have := hno m (by simp)
        rw [hh] at this
        exact absurd this (by simp)
      · intro hmp
        rw [e2] at hmp
        obtain ⟨m1, hm1s⟩ := hmpne
        rw [hm1s] at hmp
        exact absurd hmp (by simp)
      · intro m1 hm1s
        rw [e2] at hm1s
        rw [e1]
        obtain ⟨p1, p2, hp, hh1, hv, hl⟩ := hinv.mp_some m1 hm1s
        exact ⟨p1, p2 ++ [m], by rw [hp]; simp, hh1, hv, hl⟩
      · rw [e1]
        exact hmint
  · have hf : inode_hit o ino vcur m = false := by simpa using hh
    have e : fri_next o ino vcur m s = { s with n := m + node_len o m } := by
      simp [fri_next, hf]
    rw [e]
    refine ⟨?_, ?_, ?_, ?_, hinv.vmint_le, hinv.vmax_eq⟩
    · intro x hx hxh
      rcases List.mem_append.1 hx with hx | hx
      · exact hinv.seen x hx hxh
      · have hx2 : x = m := by simpa using hx
        rw [hx2, hf] at hxh
        exact absurd hxh (by simp)
    · intro hno
      exact hinv.nohit fun x hx => hno x (List.mem_append_left _ hx)
    · intro hmp x hx
      rcases List.mem_append.1 hx with hx | hx
      · exact hinv.mp_none hmp x hx
      · have hx2 : x = m := by simpa using hx
        rw [hx2]
        exact hf
    · intro m1 hm1s
      obtain ⟨p1, p2, hp, hh1, hv, hl⟩ := hinv.mp_some m1 hm1s
      exact ⟨p1, p2 ++ [m], by rw [hp]; simp, hh1, hv, hl⟩

theorem fri_pass (o : Mem) (size ino vcur : Nat) (hv : vcur < 2 ^ 32) (fuel : Nat) :
    ∀ (s : fri_state) (pre l : List Nat) (k : Nat), fri_inv o ino vcur pre s →
      scan_nodes o size fuel s.n = some l →
      (∀ m ∈ l, node_len o m ≠ 0) →
      (∀ m ∈ l, inode_hit o ino vcur m = true → je32_to_cpu o (m + 16) ≠ UINT32_MAX) →
      ∃ r, find_raw_inode_loop o size ino vcur (l.length + 1 + k) s = .ok r ∧
        fri_post o ino vcur (pre ++ l) r := by
  have hU : UINT32_MAX = 2 ^ 32 - 1 := rfl
  induction fuel with
  | zero =>
    intro s pre l k hinv hscan _ _
    by_cases h : at_node o size (skip_padding o size s.n) = true
    · simp [scan_nodes, h] at hscan
    · have h2 : at_node o size (skip_padding o size s.n) = false := by simpa using h
      simp only [scan_nodes, h2] at hscan
      injection hscan with hscan
      subst hscan
      have := fri_end o size ino vcur s pre hinv h2 k
      simpa [Nat.add_comm] using this
  | succ f ih =>
    intro s pre l k hinv hscan hlen hmax
    by_cases h : at_node o size (skip_padding o size s.n) = true
    · simp only [scan_nodes, h, if_true] at hscan
      cases hl : scan_nodes o size f
          (skip_padding o size s.n + node_len o (skip_padding o size s.n)) with
      | none => simp [hl] at hscan
      | some l1 =>
        rw [hl] at hscan
        simp only [Option.map_some'] at hscan
        injection hscan with hscan
        subst hscan
        have e : (skip_padding o size s.n :: l1).length + 1 + k = (l1.length + 1 + k) + 1 := by
          simp only [List.length_cons]
          omega
        rw [e]
        simp only [find_raw_inode_loop, find_raw_inode_body,
          find_raw_inode_scan_node o size ino vcur s h]
        by_cases hret : inode_hit o ino vcur (skip_padding o size s.n) = true ∧
            je32_to_cpu o (skip_padding o size s.n + 16) = (vcur + 1) % 2 ^ 32
        · -- `return (&(n->i))`
          rw [if_pos hret]
          refine ⟨some (skip_padding o size s.n), rfl, Or.inr ⟨_, rfl, pre, l1, rfl, hret.1, ?_, ?_⟩⟩
          · intro x hx hxh
            have h1 := hinv.seen x hx hxh
            have h2 := inode_hit_gt o ino vcur x hxh
            have h3 := inode_hit_gt o ino vcur _ hret.1
            have h4 := je32_lt o (x + 16)
            rw [hret.2] at h3 ⊢
            have h5 : (vcur + 1) % 2 ^ 32 ≤ vcur + 1 := Nat.mod_le _ _
            have h6 := h1.2.1
            omega
          · intro x _ hxh
            have h2 := inode_hit_gt o ino vcur x hxh
            rw [hret.2]
            have h5 : (vcur + 1) % 2 ^ 32 ≤ vcur + 1 := Nat.mod_le _ _
            omega
        · rw [if_neg hret]
          have hn0 : ¬ (0 = (fri_next o ino vcur (skip_padding o size s.n) s).n) := by
            have := hlen (skip_padding o size s.n) (by simp)
            simp only [fri_next]
            omega
          simp only [find_raw_inode_wrap, if_neg hn0]
          have hinv1 : fri_inv o ino vcur (pre ++ [skip_padding o size s.n])
              (fri_next o ino vcur (skip_padding o size s.n) s) :=
            fri_inv_next o ino vcur _ s pre hinv (fun hh hc => hret ⟨hh, hc⟩)
              (hmax _ (by simp))
          by_cases hlt : vcur < (fri_next o ino vcur (skip_padding o size s.n) s).vmax
          · rw [if_pos hlt]
            have := ih (fri_next o ino vcur (skip_padding o size s.n) s)
              (pre ++ [skip_padding o size s.n]) l1 k hinv1 hl
              (fun m hm => hlen m (List.mem_cons_of_mem _ hm))
              (fun m hm => hmax m (List.mem_cons_of_mem _ hm))
            simpa using this
          · -- `vcur` is the largest 32-bit value: no version is above it
            rw [if_neg hlt]
            have hvm := hinv1.vmax_eq
            have hvc : vcur = 2 ^ 32 - 1 := by omega
            refine ⟨none, rfl, Or.inl ⟨rfl, ?_⟩⟩
            intro x _
            by_contra hxh
            have h2 := inode_hit_gt o ino vcur x (by simpa using hxh)
            have h4 := je32_lt o (x + 16)
            omega
    · have h2 : at_node o size (skip_padding o size s.n) = false := by simpa using h
      simp only [scan_nodes, h2] at hscan
      injection hscan with hscan
      subst hscan
      have := fri_end o size ino vcur s pre hinv h2 k
      simpa [Nat.add_comm] using this

/-- The inode sweep where the versions stay below `0xFFFFFFFF`: on an image
whose magic-tagged nodes all have a nonzero rounded totlen,
and in which no revision of `ino` above `vcur` has version `0xFFFFFFFF`, the
scan from offset 0 visits finitely many nodes `l`; `find_raw_inode` returns
within `l.length + 1` passes; it returns NULL exactly when `l` holds no
revision of `ino` with a version above `vcur`, and otherwise the first node of
`l` that has the smallest such version. -/
theorem find_raw_inode_next_revision (o : Mem) (size ino vcur : Nat) (hv : vcur < 2 ^ 32)
    (hwf : ∀ m, at_node o size m = true → node_len o m ≠ 0)
    (hmax : ∀ m, at_node o size m = true → inode_hit o ino vcur m = true →
      je32_to_cpu o (m + 16) ≠ UINT32_MAX) :
    ∃ l, scan_nodes o size size 0 = some l ∧
      ∀ k, ∃ r, find_raw_inode o size ino vcur (l.length + 1 + k) = .ok r ∧
        (r = none ↔ ∀ x ∈ l, inode_hit o ino vcur x = false) ∧
        ∀ m, r = some m → is_next_revision o ino vcur l m := by
  obtain ⟨l, hl⟩ := scan_nodes_total o size hwf size 0 (by omega)
  refine ⟨l, hl, ?_⟩
  have hmem : ∀ fuel n l1, scan_nodes o size fuel n = some l1 →
      ∀ m ∈ l1, at_node o size m = true := by
    intro fuel
    induction fuel with
    | zero =>
      intro n l1 h m hm
      simp only [scan_nodes] at h
      split at h
      · exact absurd h (by simp)
      · injection h with h
        subst h
        simp at hm
    | succ f ih =>
      intro n l1 h m hm
      simp only [scan_nodes] at h
      split at h
      · rename_i hat
        cases hl2 : scan_nodes o size f (skip_padding o size n + node_len o (skip_padding o size n)) with
        | none => simp [hl2] at h
        | some l2 =>
          rw [hl2] at h
          simp only [Option.map_some'] at h
          injection h with h
          subst h
          rcases List.mem_cons.1 hm with hm | hm
          · rw [hm]
            exact hat
          · exact ih _ l2 hl2 m hm
      · injection h with h
        subst h
        simp at hm
  have hat := hmem size 0 l hl
  intro k
  have hinv0 : fri_inv o ino vcur []
      { n := 0, mp := none, vmint := UINT32_MAX, vmaxt := 0, vmax := UINT32_MAX } :=
    ⟨by simp, fun _ => ⟨rfl, rfl⟩, by simp, by simp, Nat.le_refl _, rfl⟩
  obtain ⟨r, hr, hpost⟩ := fri_pass o size ino vcur hv size _ [] l k hinv0 hl
    (fun m hm => hwf m (hat m hm)) (fun m hm => hmax m (hat m hm))
  refine ⟨r, hr, ?_, ?_⟩
  · constructor
    · intro hnone
      rcases hpost with ⟨_, hno⟩ | ⟨m, hm, _⟩
      · simpa using hno
      · rw [hnone] at hm
        exact absurd hm (by simp)
    · intro hno
      rcases hpost with ⟨hnone, _⟩ | ⟨m, _, p1, p2, hp, hh, _⟩
      · exact hnone
      · have := hno m (by rw [List.nil_append] at hp; rw [hp]; simp)
        rw [hh] at this
        exact absurd this (by simp)
  · intro m hm
    rcases hpost with ⟨hnone, _⟩ | ⟨m1, hm1, hnext⟩
    · rw [hnone] at hm
      exact absurd hm (by simp)
    · rw [hm1] at hm
      injection hm with hm
      subst hm
      simpa using hnext

/-! ## The dirent sweep on images without padding before a node -/

theorem cd_pos_succ (o : Mem) (size i : Nat) :
    cd_pos o size (i + 1) = cd_nxt o size (cd_pos o size i) := by
  unfold cd_pos
  rw [Function.iterate_succ_apply']

theorem cd_pos_add (o : Mem) (size i j : Nat) :
    cd_pos o size (i + j) = (cd_nxt o size)^[i] (cd_pos o size j) := by
  unfold cd_pos
  rw [Function.iterate_add_apply]

theorem cd_pos_add_period (o : Mem) (size K : Nat) (h : cd_pos o size K = 0) (i : Nat) :
    cd_pos o size (i + K) = cd_pos o size i := by
  rw [cd_pos_add, h]
  rfl

theorem cd_pos_add_mul (o : Mem) (size K : Nat) (h : cd_pos o size K = 0) (i t : Nat) :
    cd_pos o size (i + t * K) = cd_pos o size i := by
  induction t with
  | zero => simp
  | succ t ih =>
    rw [Nat.succ_mul, ← Nat.add_assoc, cd_pos_add_period o size K h, ih]

theorem cd_pos_mod (o : Mem) (size K : Nat) (h : cd_pos o size K = 0) (i : Nat) :
    cd_pos o size (i % K) = cd_pos o size i := by
  conv_rhs => rw [← Nat.mod_add_div i K]
  rw [Nat.mul_comm, cd_pos_add_mul o size K h]

theorem cd_pos_inj (o : Mem) (size K : Nat) (h : cd_orbit o size K) (i j : Nat)
    (hi : i < j) (hj : j < K) : cd_pos o size i ≠ cd_pos o size j := by
  intro e
  have e2 : cd_pos o size (K - j + i) = cd_pos o size (K - j + j) := by
    rw [cd_pos_add, cd_pos_add, e]
  rw [Nat.sub_add_cancel (Nat.le_of_lt hj), h.period] at e2
  exact h.first (K - j + i) (by omega) (by omega) e2

/-- Within one revolution the scan does not come back to where it was. -/
theorem cd_pos_ne (o : Mem) (size K : Nat) (h : cd_orbit o size K) (a e : Nat)
    (he : 0 < e) (hK : e < K) : cd_pos o size (a + e) ≠ cd_pos o size a := by
  rw [← cd_pos_mod o size K h.period (a + e), ← cd_pos_mod o size K h.period a]
  have h1 : (a + e) % K < K := Nat.mod_lt _ (by omega)
  have h2 : a % K < K := Nat.mod_lt _ (by omega)
  have hne : (a + e) % K ≠ a % K := by
    intro heq
    have h3 : (a + e) % K = (a % K + e) % K := by
      rw [Nat.add_mod, Nat.mod_eq_of_lt hK]
    rw [h3] at heq
    by_cases hc : a % K + e < K
    · rw [Nat.mod_eq_of_lt hc] at heq
      omega
    · have h4 : (a % K + e) % K = a % K + e - K := by
        rw [Nat.mod_eq_sub_mod (by omega), Nat.mod_eq_of_lt (by omega)]
      omega
  rcases Nat.lt_or_gt_of_ne hne with hlt | hgt
  · exact fun e => cd_pos_inj o size K h _ _ hlt h2 e
  · exact fun e => cd_pos_inj o size K h _ _ hgt h1 e.symm

/-- One revolution from any position covers every position. -/
theorem cd_pos_cover (o : Mem) (size K : Nat) (h : cd_orbit o size K) (hK : 0 < K) (a j : Nat) :
    ∃ i, i < K ∧ cd_pos o size (a + i) = cd_pos o size j := by
  refine ⟨(j + a * K - a) % K, Nat.mod_lt _ hK, ?_⟩
  have h1 : a ≤ j + a * K := by
    have : a * 1 ≤ a * K := Nat.mul_le_mul_left a hK
    omega
  rw [← cd_pos_mod o size K h.period (a + (j + a * K - a) % K), Nat.add_mod_mod,
    cd_pos_mod o size K h.period, Nat.add_sub_cancel' h1, cd_pos_add_mul o size K h.period]

theorem skip_padding_at_node (o : Mem) (size n : Nat) (h : at_node o size n = true) :
    skip_padding o size n = n := by
  unfold at_node at h
  simp only [Bool.and_eq_true, decide_eq_true_eq, beq_iff_eq] at h
  unfold skip_padding
  cases size - n with
  | zero => rfl
  | succ f => simp [skip_padding_loop, h.2]

theorem collectdir_scan_eq (o : Mem) (size ino : Nat) (s : cd_state)
    (hnop : at_node o size (skip_padding o size s.n) = at_node o size s.n) :
    collectdir_scan o size ino s =
      if dirent_hit o size ino s.vcur s.n = true ∧
          je32_to_cpu o (s.n + 16) = (s.vcur + 1) % 2 ^ 32 then cd_accept o size ino s
      else cd_step o size ino s := by
  by_cases hat : at_node o size s.n = true
  · have hs := skip_padding_at_node o size s.n hat
    unfold collectdir_scan
    simp only [hs, hat, if_true, cd_accept, cd_step, dirent_hit, cd_nxt, Bool.and_eq_true,
      beq_iff_eq, decide_eq_true_eq, Bool.true_and, true_and]
  · have hf : at_node o size s.n = false := by simpa using hat
    rw [hf] at hnop
    have hh : dirent_hit o size ino s.vcur s.n = false := by simp [dirent_hit, hf]
    unfold collectdir_scan
    simp [hnop, hh, cd_step, cd_nxt, hf]

theorem dirent_hit_iff (o : Mem) (size ino vcur x : Nat) :
    dirent_hit o size ino vcur x = true ↔
      dirent_hit o size ino 0 x = true ∧ vcur < je32_to_cpu o (x + 16) := by
  unfold dirent_hit
  simp only [Bool.and_eq_true, beq_iff_eq, decide_eq_true_eq]
  constructor
  · rintro ⟨h1, h2, h3⟩
    exact ⟨⟨h1, h2, by omega⟩, h3⟩
  · rintro ⟨⟨h1, h2, _⟩, h3⟩
    exact ⟨h1, h2, h3⟩

theorem dirent_hit_at_node (o : Mem) (size ino vcur x : Nat)
    (h : dirent_hit o size ino vcur x = true) : at_node o size x = true := by
  unfold dirent_hit at h
  simp only [Bool.and_eq_true] at h
  exact h.1

theorem cd_marks_step (o : Mem) (size ino : Nat) (s : cd_state) (a d : Nat)
    (hm : cd_marks o size ino s a d) (hn : s.n = cd_pos o size (a + d))
    (hbelow : dirent_hit o size ino 0 s.n = true → je32_to_cpu o (s.n + 16) ≠ UINT32_MAX) :
    cd_marks o size ino (cd_step o size ino s) a (d + 1) := by
  have hb := je32_lt o (s.n + 16)
  have hU : UINT32_MAX = 2 ^ 32 - 1 := rfl
  have hvc : (cd_step o size ino s).vcur = s.vcur := rfl
  by_cases hh : dirent_hit o size ino s.vcur s.n = true
  · have hv := ((dirent_hit_iff o size ino s.vcur s.n).1 hh)
    have hne := hbelow hv.1
    have htop : (cd_step o size ino s).vmaxt = 0 ∨ ∃ j, dirent_hit o size ino 0 (cd_pos o size j) = true ∧
        je32_to_cpu o (cd_pos o size j + 16) = (cd_step o size ino s).vmaxt := by
      simp only [cd_step, hh, true_and]
      split
      · exact Or.inr ⟨a + d, by rw [← hn]; exact hv.1, by rw [← hn]⟩
      · exact hm.top
    have hmaxt : s.vmaxt ≤ (cd_step o size ino s).vmaxt ∧
        je32_to_cpu o (s.n + 16) ≤ (cd_step o size ino s).vmaxt := by
      simp only [cd_step, hh, true_and]
      split <;> omega
    by_cases hlt : s.vmint > je32_to_cpu o (s.n + 16)
    · have e1 : (cd_step o size ino s).vmint = je32_to_cpu o (s.n + 16) := by
        simp [cd_step, hh, hlt]
      have e2 : (cd_step o size ino s).mp = some s.n := by
        simp [cd_step, hh, hlt]
      refine ⟨?_, Or.inr ⟨d, by omega, by rw [e2, hn], by rw [hvc, ← hn]; exact hh,
        by rw [e1, hn]⟩, htop⟩
      intro i hi hhi
      rw [hvc] at hhi
      rw [e1]
      rcases Nat.lt_or_ge i d with hid | hid
      · have := hm.seen i hid hhi
        omega
      · have hid2 : i = d := by omega
        subst hid2
        rw [← hn]
        omega
    · have e1 : (cd_step o size ino s).vmint = s.vmint := by
        simp [cd_step, hh, hlt]
      have e2 : (cd_step o size ino s).mp = s.mp := by
        simp [cd_step, hh, hlt]
      refine ⟨?_, ?_, htop⟩
      · intro i hi hhi
        rw [hvc] at hhi
        rw [e1]
        rcases Nat.lt_or_ge i d with hid | hid
        · have := hm.seen i hid hhi
          omega
        · have hid2 : i = d := by omega
          subst hid2
          rw [← hn]
          omega
      · rcases hm.cand with ⟨hM, _⟩ | ⟨i, hi, h1, h2, h3⟩
        · omega
        · exact Or.inr ⟨i, by omega, by rw [e2]; exact h1, by rw [hvc]; exact h2,
            by rw [e1]; exact h3⟩
  · have hf : dirent_hit o size ino s.vcur s.n = false := by simpa using hh
    have e : cd_step o size ino s = { s with n := cd_nxt o size s.n } := by
      simp [cd_step, hf]
    rw [e]
    refine ⟨?_, ?_, hm.top⟩
    · intro i hi hhi
      rcases Nat.lt_or_ge i d with hid | hid
      · exact hm.seen i hid hhi
      · have hid2 : i = d := by omega
        subst hid2
        simp only [← hn] at hhi
        rw [hf] at hhi
        exact absurd hhi (by simp)
    · rcases hm.cand with ⟨hM, hno⟩ | ⟨i, hi, h1, h2, h3⟩
      · refine Or.inl ⟨hM, ?_⟩
        intro i hi
        rcases Nat.lt_or_ge i d with hid | hid
        · exact hno i hid
        · have hid2 : i = d := by omega
          subst hid2
          simp only [← hn]
          exact hf
      · exact Or.inr ⟨i, by omega, h1, h2, h3⟩

theorem cd_count_lt (o : Mem) (size ino K vcur vcur1 j : Nat) (hle : vcur ≤ vcur1) (hj : j < K)
    (hold : dirent_hit o size ino vcur (cd_pos o size j) = true)
    (hnew : dirent_hit o size ino vcur1 (cd_pos o size j) = false) :
    cd_count o size ino K vcur1 < cd_count o size ino K vcur := by
  unfold cd_count
  have e : (List.range K).filter (fun i => dirent_hit o size ino vcur1 (cd_pos o size i)) =
      ((List.range K).filter fun i => dirent_hit o size ino vcur (cd_pos o size i)).filter
        fun i => dirent_hit o size ino vcur1 (cd_pos o size i) := by
    rw [List.filter_filter]
    apply List.filter_congr
    intro i _
    by_cases h1 : dirent_hit o size ino vcur1 (cd_pos o size i) = true
    · have h2 := (dirent_hit_iff o size ino vcur1 _).1 h1
      have h3 : dirent_hit o size ino vcur (cd_pos o size i) = true :=
        (dirent_hit_iff o size ino vcur _).2 ⟨h2.1, by omega⟩
      simp [h1, h3]
    · have h1f : dirent_hit o size ino vcur1 (cd_pos o size i) = false := by simpa using h1
      simp [h1f]
  rw [e, List.length_filter_lt_length_iff_exists]
  exact ⟨j, List.mem_filter.2 ⟨List.mem_range.2 hj, hold⟩, by simp [hnew]⟩

theorem replay_append (o : Mem) (d0 : List dir) (acc : List Nat) (m : Nat) :
    replay o d0 (acc ++ [m]) = putdir (replay o d0 acc) (direntAt o m) := by
  simp [replay, List.foldl_append]

/-- Applying the revision with the smallest version above `vcur` keeps the
applied nodes in ascending version order and complete up to the new `vcur`. -/
theorem cd_acc_append (o : Mem) (size ino K : Nat) (H : cd_hyp o size ino K) (acc : List Nat)
    (vcur j : Nat)
    (hsorted : acc.Pairwise fun x y => je32_to_cpu o (x + 16) < je32_to_cpu o (y + 16))
    (hmem : ∀ x, x ∈ acc ↔ (∃ j, x = cd_pos o size j) ∧ dirent_hit o size ino 0 x = true ∧
      je32_to_cpu o (x + 16) ≤ vcur)
    (hm : dirent_hit o size ino vcur (cd_pos o size j) = true)
    (hmin : ∀ i, dirent_hit o size ino vcur (cd_pos o size i) = true →
      je32_to_cpu o (cd_pos o size j + 16) ≤ je32_to_cpu o (cd_pos o size i + 16)) :
    ((acc ++ [cd_pos o size j]).Pairwise fun x y =>
      je32_to_cpu o (x + 16) < je32_to_cpu o (y + 16)) ∧
    ∀ x, x ∈ acc ++ [cd_pos o size j] ↔ (∃ j, x = cd_pos o size j) ∧
      dirent_hit o size ino 0 x = true ∧
      je32_to_cpu o (x + 16) ≤ je32_to_cpu o (cd_pos o size j + 16) := by
  have hm2 := (dirent_hit_iff o size ino vcur _).1 hm
  constructor
  · rw [List.pairwise_append]
    refine ⟨hsorted, List.pairwise_singleton _ _, ?_⟩
    intro x hx y hy
    have hy2 : y = cd_pos o size j := by simpa using hy
    rw [hy2]
    have := ((hmem x).1 hx).2.2
    omega
  · intro x
    constructor
    · intro hx
      rcases List.mem_append.1 hx with hx | hx
      · have := (hmem x).1 hx
        exact ⟨this.1, this.2.1, by omega⟩
      · have hx2 : x = cd_pos o size j := by simpa using hx
        rw [hx2]
        exact ⟨⟨j, rfl⟩, hm2.1, Nat.le_refl _⟩
    · rintro ⟨⟨i, hi⟩, hh, hle⟩
      by_cases hc : je32_to_cpu o (x + 16) ≤ vcur
      · exact List.mem_append_left _ ((hmem x).2 ⟨⟨i, hi⟩, hh, hc⟩)
      · subst hi
        have hhit : dirent_hit o size ino vcur (cd_pos o size i) = true :=
          (dirent_hit_iff o size ino vcur _).2 ⟨hh, by omega⟩
        have := hmin i hhit
        have heq := H.dist i j hh hm2.1 (by omega)
        rw [heq]
        simp

/-- When the loop test fails every dirent revision has been applied. -/
theorem cd_exit (o : Mem) (size ino : Nat) (d0 : List dir) (s : cd_state) (a d : Nat)
    (acc : List Nat) (hinv : cd_inv o size ino d0 s a d acc) (ht : ¬ s.vcur < s.vmax) :
    cd_final o size ino acc := by
  refine ⟨hinv.sorted, fun x => ?_⟩
  rw [hinv.mem x]
  constructor
  · rintro ⟨h1, h2, _⟩
    exact ⟨h1, h2⟩
  · rintro ⟨⟨j, hj⟩, h2⟩
    refine ⟨⟨j, hj⟩, h2, ?_⟩
    subst hj
    have := hinv.vmax_ge j h2
    omega

/-- One pass of the loop of `collectdir` from a state that satisfies the
invariant: either the loop test fails afterwards and every dirent revision has
been applied, or the invariant holds again and the measure has gone down. -/
theorem cd_pass (o : Mem) (size ino K : Nat) (d0 : List dir) (H : cd_hyp o size ino K)
    (s : cd_state) (a d : Nat) (acc : List Nat) (hinv : cd_inv o size ino d0 s a d acc)
    (hd : d < K) :
    ∃ s1, collectdir_wrap o (collectdir_scan o size ino s) = some s1 ∧
      ((¬ s1.vcur < s1.vmax ∧ ∃ acc1, s1.d = replay o d0 acc1 ∧ cd_final o size ino acc1) ∨
       ∃ a1 d1 acc1, cd_inv o size ino d0 s1 a1 d1 acc1 ∧ d1 < K ∧
         cd_count o size ino K s1.vcur * (K + 1) + (K - d1) <
           cd_count o size ino K s.vcur * (K + 1) + (K - d)) := by
  have hU : UINT32_MAX = 2 ^ 32 - 1 := rfl
  have hn := hinv.n_eq
  have hb := je32_lt o (s.n + 16)
  have hvc := hinv.vcur_lt
  rw [collectdir_scan_eq o size ino s (by rw [hn]; exact H.nopad _)]
  by_cases hp1 : dirent_hit o size ino s.vcur s.n = true ∧
      je32_to_cpu o (s.n + 16) = (s.vcur + 1) % 2 ^ 32
  · -- the node at `n` has version `vcur + 1`
    rw [if_pos hp1]
    obtain ⟨hh, heq⟩ := hp1
    have hv := (dirent_hit_iff o size ino s.vcur s.n).1 hh
    have hmod : (s.vcur + 1) % 2 ^ 32 ≤ s.vcur + 1 := Nat.mod_le _ _
    have hv1 : je32_to_cpu o (s.n + 16) = s.vcur + 1 := by omega
    have hat := dirent_hit_at_node o size ino s.vcur s.n hh
    have hlen : node_len o s.n ≠ 0 := by
      have := H.len_ne (a + d)
      rw [← hn] at this
      exact this hat
    have hnx : cd_nxt o size s.n = s.n + node_len o s.n := by simp [cd_nxt, hat]
    have hwrap : collectdir_wrap o (cd_accept o size ino s) = some (cd_accept o size ino s) := by
      unfold collectdir_wrap
      rw [if_neg]
      simp only [cd_accept, hnx]
      omega
    have hK1 : 1 < K := by
      by_contra hc
      have hK : K = 1 := by have := H.Kpos; omega
      have h1 := cd_pos_add_period o size K H.period (a + d)
      rw [hK, cd_pos_succ, ← hn, hnx] at h1
      omega
    have hvnew : (cd_accept o size ino s).vcur = je32_to_cpu o (s.n + 16) := heq.symm
    have hhn : dirent_hit o size ino s.vcur (cd_pos o size (a + d)) = true := by
      rw [← hn]
      exact hh
    have happ := cd_acc_append o size ino K H acc s.vcur (a + d) hinv.sorted hinv.mem hhn (by
      intro i hi
      have := (dirent_hit_iff o size ino s.vcur _).1 hi
      rw [← hn]
      omega)
    rw [← hn] at happ
    refine ⟨_, hwrap, Or.inr ⟨a + d, 1, acc ++ [s.n], ⟨hn, ?_, ?_, ⟨?_, ?_, ?_⟩, hinv.vmax_ge, ?_,
      happ.1, ?_⟩, hK1, ?_⟩⟩
    · show cd_nxt o size s.n = _
      rw [cd_pos_succ, ← hn]
    · rw [hvnew]
      have := H.below (a + d) (by rw [← hn]; exact hv.1)
      rw [← hn] at this
      omega
    · intro i hi hhi
      have hi0 : i = 0 := by omega
      subst hi0
      have e0 : a + d + 0 = a + d := rfl
      rw [hvnew, e0, ← hn] at hhi
      have := (dirent_hit_iff o size ino _ _).1 hhi
      omega
    · refine Or.inl ⟨rfl, ?_⟩
      intro i hi
      have hi0 : i = 0 := by omega
      subst hi0
      have e0 : a + d + 0 = a + d := rfl
      rw [hvnew, e0, ← hn]
      by_contra hc
      have := (dirent_hit_iff o size ino _ _).1 (by simpa using hc)
      omega
    · simp only [cd_accept, hh, true_and]
      split
      · exact Or.inr ⟨a + d, by rw [← hn]; exact hv.1, by rw [← hn]⟩
      · exact hinv.marks.top
    · show putdir s.d (direntAt o s.n) = _
      rw [replay_append, hinv.d_eq]
    · intro x
      rw [hvnew]
      exact happ.2 x
    · obtain ⟨j, hj, hjp⟩ := cd_pos_cover o size K H.tocd_orbit H.Kpos 0 (a + d)
      rw [Nat.zero_add] at hjp
      have hcnt := cd_count_lt o size ino K s.vcur (cd_accept o size ino s).vcur j
        (by rw [hvnew]; omega) hj (by rw [hjp]; exact hhn) (by
          rw [hjp, hvnew, ← hn]
          by_contra hc
          have := (dirent_hit_iff o size ino _ _).1 (by simpa using hc)
          omega)
      have hmul := Nat.mul_le_mul_right (K + 1) (Nat.succ_le_of_lt hcnt)
      rw [Nat.succ_mul] at hmul
      omega
  · rw [if_neg hp1]
    have hmarks := cd_marks_step o size ino s a d hinv.marks hn (by
      intro hh
      have := H.below (a + d) (by rw [← hn]; exact hh)
      rw [← hn] at this
      exact this)
    have hn1 : (cd_step o size ino s).n = cd_pos o size (a + (d + 1)) := by
      show cd_nxt o size s.n = _
      rw [← Nat.add_assoc, cd_pos_succ, ← hn]
    have hlr1 : (cd_step o size ino s).lr = cd_pos o size a := hinv.lr_eq
    have hvc1 : (cd_step o size ino s).vcur = s.vcur := rfl
    have hd1 : (cd_step o size ino s).d = s.d := rfl
    by_cases hrev : d + 1 < K
    · -- no whole revolution yet
      have hne : ¬ (cd_step o size ino s).lr = (cd_step o size ino s).n := by
        rw [hn1, hlr1]
        exact fun e => cd_pos_ne o size K H.tocd_orbit a (d + 1) (by omega) hrev e.symm
      have hwrap : collectdir_wrap o (cd_step o size ino s) = some (cd_step o size ino s) := by
        unfold collectdir_wrap
        rw [if_neg hne]
      refine ⟨_, hwrap, Or.inr ⟨a, d + 1, acc, ⟨hlr1, hn1, hvc, hmarks, hinv.vmax_ge,
        hinv.d_eq, hinv.sorted, hinv.mem⟩, hrev, ?_⟩⟩
      rw [hvc1]
      omega
    · -- a whole revolution since `lr` was set
      have hdK : d + 1 = K := by omega
      have heq : (cd_step o size ino s).lr = (cd_step o size ino s).n := by
        rw [hn1, hlr1, hdK, cd_pos_add_period o size K H.period]
      have hall : ∀ j, dirent_hit o size ino s.vcur (cd_pos o size j) = true →
          (cd_step o size ino s).vmint ≤ je32_to_cpu o (cd_pos o size j + 16) ∧
          je32_to_cpu o (cd_pos o size j + 16) ≤ (cd_step o size ino s).vmaxt := by
        intro j hj
        obtain ⟨i, hi, hip⟩ := cd_pos_cover o size K H.tocd_orbit H.Kpos a j
        rw [← hip]
        exact hmarks.seen i (by omega) (by rw [hvc1, hip]; exact hj)
      have hcand : s.vcur < (cd_step o size ino s).vmaxt →
          ∃ i, (cd_step o size ino s).mp = some (cd_pos o size (a + i)) ∧
            dirent_hit o size ino s.vcur (cd_pos o size (a + i)) = true ∧
            je32_to_cpu o (cd_pos o size (a + i) + 16) = (cd_step o size ino s).vmint := by
        intro hlt
        rcases hmarks.top with h0 | ⟨j, hj, hjv⟩
        · omega
        · have hjh : dirent_hit o size ino s.vcur (cd_pos o size j) = true :=
            (dirent_hit_iff o size ino s.vcur _).2 ⟨hj, by omega⟩
          rcases hmarks.cand with ⟨_, hno⟩ | ⟨i, _, h1, h2, h3⟩
          · obtain ⟨i, hi, hip⟩ := cd_pos_cover o size K H.tocd_orbit H.Kpos a j
            have := hno i (by omega)
            rw [hvc1, hip, hjh] at this
            exact absurd this (by simp)
          · exact ⟨i, h1, h2, h3⟩
      unfold collectdir_wrap
      rw [if_pos heq]
      by_cases hc : (cd_step o size ino s).vcur < (cd_step o size ino s).vmaxt ∧
          (cd_step o size ino s).vcur < (cd_step o size ino s).vmint
      · -- the candidate `mp` is applied
        rw [if_pos hc]
        obtain ⟨i, hmp, hih, hiv⟩ := hcand hc.1
        rw [hmp]
        have hi2 := (dirent_hit_iff o size ino s.vcur _).1 hih
        have hat := dirent_hit_at_node o size ino s.vcur _ hih
        have hnx : cd_pos o size (a + i) + node_len o (cd_pos o size (a + i)) =
            cd_pos o size (a + i + 1) := by
          rw [cd_pos_succ]
          simp [cd_nxt, hat]
        have happ := cd_acc_append o size ino K H acc s.vcur (a + i) hinv.sorted hinv.mem hih
          (by
            intro j hj
            rw [hiv]
            exact (hall j hj).1)
        refine ⟨_, rfl, Or.inr ⟨a + i + 1, 0, acc ++ [cd_pos o size (a + i)],
          ⟨hnx, hnx, ?_, ⟨?_, ?_, hmarks.top⟩, ?_, ?_, happ.1, ?_⟩, H.Kpos, ?_⟩⟩
        · show (cd_step o size ino s).vmint < UINT32_MAX
          rw [← hiv]
          have := H.below (a + i) hi2.1
          have := je32_lt o (cd_pos o size (a + i) + 16)
          omega
        · intro i0 hi0
          omega
        · exact Or.inl ⟨rfl, fun i0 hi0 => by omega⟩
        · intro j hj
          show _ ≤ (cd_step o size ino s).vmaxt
          by_cases hle : je32_to_cpu o (cd_pos o size j + 16) ≤ s.vcur
          · have := hc.1
            rw [hvc1] at this
            omega
          · exact (hall j ((dirent_hit_iff o size ino s.vcur _).2 ⟨hj, by omega⟩)).2
        · show putdir (cd_step o size ino s).d (direntAt o (cd_pos o size (a + i))) = _
          rw [replay_append, hd1, hinv.d_eq]
        · intro x
          show _ ↔ _ ∧ _ ∧ _ ≤ (cd_step o size ino s).vmint
          rw [← hiv]
          exact happ.2 x
        · show cd_count o size ino K (cd_step o size ino s).vmint * (K + 1) + (K - 0) < _
          obtain ⟨j, hj, hjp⟩ := cd_pos_cover o size K H.tocd_orbit H.Kpos 0 (a + i)
          rw [Nat.zero_add] at hjp
          have hcnt := cd_count_lt o size ino K s.vcur (cd_step o size ino s).vmint j
            (by rw [← hiv]; omega) hj (by rw [hjp]; exact hih) (by
              rw [hjp, ← hiv]
              by_contra hc2
              have := (dirent_hit_iff o size ino _ _).1 (by simpa using hc2)
              omega)
          have hmul := Nat.mul_le_mul_right (K + 1) (Nat.succ_le_of_lt hcnt)
          rw [Nat.succ_mul] at hmul
          omega
      · -- nothing is left above `vcur`
        rw [if_neg hc]
        have hnolt : ¬ s.vcur < (cd_step o size ino s).vmaxt := by
          intro hlt
          obtain ⟨i, _, hih, hiv⟩ := hcand hlt
          have hi2 := (dirent_hit_iff o size ino s.vcur _).1 hih
          apply hc
          rw [hvc1]
          exact ⟨hlt, by omega⟩
        refine ⟨_, rfl, Or.inl ⟨hnolt, acc, hinv.d_eq, hinv.sorted, fun x => ?_⟩⟩
        rw [hinv.mem x]
        constructor
        · rintro ⟨h1, h2, _⟩
          exact ⟨h1, h2⟩
        · rintro ⟨⟨j, hj⟩, h2⟩
          refine ⟨⟨j, hj⟩, h2, ?_⟩
          subst hj
          by_contra hgt
          have := (hall j ((dirent_hit_iff o size ino s.vcur _).2 ⟨h2, by omega⟩)).2
          omega

theorem cd_run (o : Mem) (size ino K : Nat) (d0 : List dir) (H : cd_hyp o size ino K) (N : Nat) :
    ∀ (s : cd_state) (a d : Nat) (acc : List Nat), cd_inv o size ino d0 s a d acc → d < K →
      cd_count o size ino K s.vcur * (K + 1) + (K - d) ≤ N →
      ∃ fuel acc1, collectdir_loop o size ino fuel s = .ok (replay o d0 acc1) ∧
        cd_final o size ino acc1 := by
  induction N with
  | zero =>
    intro s a d acc _ hd hN
    omega
  | succ N ih =>
    intro s a d acc hinv hd hN
    obtain ⟨s1, hw, hcase⟩ := cd_pass o size ino K d0 H s a d acc hinv hd
    rcases hcase with ⟨ht, acc1, hd1, hf⟩ | ⟨a1, d1, acc1, hinv1, hd1, hlt⟩
    · exact ⟨1, acc1, by simp [collectdir_loop, hw, ht, hd1], hf⟩
    · by_cases ht : s1.vcur < s1.vmax
      · obtain ⟨fuel, acc2, hl, hf⟩ := ih s1 a1 d1 acc1 hinv1 hd1 (by omega)
        exact ⟨fuel + 1, acc2, by simp [collectdir_loop, hw, ht, hl], hf⟩
      · exact ⟨1, acc1, by simp [collectdir_loop, hw, ht, hinv1.d_eq],
          cd_exit o size ino d0 s1 a1 d1 acc1 hinv1 ht⟩

/-- With no padding before a node, the nodes of the scan are the scan
positions `cd_pos 0, cd_pos 1, ...`, and the position after the last node is
not a node. -/
theorem scan_nodes_chain (o : Mem) (size : Nat) (fuel : Nat) :
    ∀ (n : Nat) (l : List Nat), scan_nodes o size fuel n = some l →
      at_node o size (skip_padding o size n) = at_node o size n →
      (∀ m ∈ l, at_node o size (skip_padding o size (m + node_len o m)) =
        at_node o size (m + node_len o m)) →
      l = (List.range l.length).map (fun i => (cd_nxt o size)^[i] n) ∧
      (∀ i, i < l.length → at_node o size ((cd_nxt o size)^[i] n) = true) ∧
      at_node o size ((cd_nxt o size)^[l.length] n) = false := by
  induction fuel with
  | zero =>
    intro n l h hn _
    simp only [scan_nodes] at h
    split at h
    · exact absurd h (by simp)
    · rename_i hat
      injection h with h
      subst h
      rw [hn] at hat
      simpa using hat
  | succ f ih =>
    intro n l h hn hl
    simp only [scan_nodes] at h
    split at h
    · rename_i hat
      rw [hn] at hat
      have hs := skip_padding_at_node o size n hat
      rw [hs] at h
      cases hl2 : scan_nodes o size f (n + node_len o n) with
      | none => simp [hl2] at h
      | some l2 =>
        rw [hl2] at h
        simp only [Option.map_some'] at h
        injection h with h
        subst h
        have hnx : cd_nxt o size n = n + node_len o n := by simp [cd_nxt, hat]
        obtain ⟨h1, h2, h3⟩ := ih (n + node_len o n) l2 hl2 (hl n (by simp))
          (fun m hm => hl m (List.mem_cons_of_mem _ hm))
        refine ⟨?_, ?_, ?_⟩
        · simp only [List.length_cons, List.range_succ_eq_map, List.map_cons, List.map_map,
            Function.iterate_zero, id_eq]
          congr 1
          conv_lhs => rw [h1]
          apply List.map_congr_left
          intro i _
          simp only [Function.comp, Function.iterate_succ_apply, hnx]
        · intro i hi
          cases i with
          | zero => simpa using hat
          | succ i =>
            rw [Function.iterate_succ_apply, hnx]
            exact h2 i (by simpa using hi)
        · simp only [List.length_cons, Function.iterate_succ_apply, hnx]
          exact h3
    · rename_i hat
      injection h with h
      subst h
      rw [hn] at hat
      simpa using hat

/-- The dirent sweep on images without padding before a node: let `l` be the
nodes the scan from offset 0 visits, all with a nonzero rounded
totlen, each starting where the node before it ends (the first at offset 0),
and let the dirent revisions under `ino` in `l` have pairwise distinct versions
below `0xFFFFFFFF`.  Then `collectdir` returns, and the state it returns is `d0`
with `putdir` applied to exactly the dirent revisions of `l` with parent `ino`
and version above 0, each once, in ascending version order. -/
theorem collectdir_replays (o : Mem) (size ino : Nat) (d0 : List dir) (fuel0 : Nat)
    (l : List Nat) (hscan : scan_nodes o size fuel0 0 = some l)
    (hlen : ∀ m ∈ l, node_len o m ≠ 0)
    (hpad0 : at_node o size (skip_padding o size 0) = at_node o size 0)
    (hpad : ∀ m ∈ l, at_node o size (skip_padding o size (m + node_len o m)) =
      at_node o size (m + node_len o m))
    (hdist : ∀ x ∈ l, ∀ y ∈ l, dirent_hit o size ino 0 x = true →
      dirent_hit o size ino 0 y = true →
      je32_to_cpu o (x + 16) = je32_to_cpu o (y + 16) → x = y)
    (hmax : ∀ x ∈ l, dirent_hit o size ino 0 x = true → je32_to_cpu o (x + 16) ≠ UINT32_MAX) :
    ∃ fuel acc, collectdir o size ino d0 fuel = .ok (replay o d0 acc) ∧
      acc.Perm (l.filter (dirent_hit o size ino 0)) ∧
      acc.Pairwise fun x y => je32_to_cpu o (x + 16) < je32_to_cpu o (y + 16) := by
  obtain ⟨hl, hnode, hend⟩ := scan_nodes_chain o size fuel0 0 l hscan hpad0 hpad
  have hl2 : l = (List.range l.length).map (cd_pos o size) := hl
  have hnode2 : ∀ i, i < l.length → at_node o size (cd_pos o size i) = true := hnode
  have hend2 : at_node o size (cd_pos o size l.length) = false := hend
  have hmemP : ∀ i, i < l.length → cd_pos o size i ∈ l := by
    intro i hi
    rw [hl2]
    exact List.mem_map.2 ⟨i, List.mem_range.2 (by simpa using hi), rfl⟩
  have hPmem : ∀ x ∈ l, ∃ i, i < l.length ∧ x = cd_pos o size i := by
    intro x hx
    rw [hl2] at hx
    obtain ⟨i, hi, hix⟩ := List.mem_map.1 hx
    exact ⟨i, by simpa using List.mem_range.1 hi, hix.symm⟩
  have hper : cd_pos o size (l.length + 1) = 0 := by
    rw [cd_pos_succ]
    simp [cd_nxt, hend2]
  have hnodemem : ∀ i, at_node o size (cd_pos o size i) = true → cd_pos o size i ∈ l := by
    intro i hi
    rw [← cd_pos_mod o size _ hper i] at hi ⊢
    have hlt : i % (l.length + 1) < l.length + 1 := Nat.mod_lt _ (by omega)
    by_cases hk : i % (l.length + 1) = l.length
    · rw [hk, hend2] at hi
      exact absurd hi (by simp)
    · exact hmemP _ (by omega)
  have hsucc : ∀ j, j < l.length →
      cd_pos o size (j + 1) = cd_pos o size j + node_len o (cd_pos o size j) := by
    intro j hj
    rw [cd_pos_succ]
    simp [cd_nxt, hnode2 j hj]
  have H : cd_hyp o size ino (l.length + 1) := by
    refine ⟨⟨?_, ?_, hper, ?_⟩, by omega, ?_, ?_⟩
    · intro i
      rw [← cd_pos_mod o size _ hper i]
      have hlt : i % (l.length + 1) < l.length + 1 := Nat.mod_lt _ (by omega)
      cases hj : i % (l.length + 1) with
      | zero => exact hpad0
      | succ j =>
        rw [hj] at hlt
        rw [hsucc j (by omega)]
        exact hpad _ (hmemP j (by omega))
    · intro i hi
      exact hlen _ (hnodemem i hi)
    · intro i hi0 hiK
      cases i with
      | zero => omega
      | succ j =>
        rw [hsucc j (by omega)]
        have := hlen _ (hmemP j (by omega))
        omega
    · intro i j hi hj hv
      exact hdist _ (hnodemem i (dirent_hit_at_node o size ino 0 _ hi)) _
        (hnodemem j (dirent_hit_at_node o size ino 0 _ hj)) hi hj hv
    · intro j hj
      exact hmax _ (hnodemem j (dirent_hit_at_node o size ino 0 _ hj)) hj
  have hinv0 : cd_inv o size ino d0
      { n := 0, lr := 0, mp := none, vmint := UINT32_MAX, vmaxt := 0, vmax := UINT32_MAX,
        vcur := 0, d := d0 } 0 0 [] := by
    refine ⟨rfl, rfl, (by decide : 0 < UINT32_MAX), ⟨fun i hi => by omega, Or.inl ⟨rfl, fun i hi => by omega⟩,
      Or.inl rfl⟩, ?_, rfl, List.Pairwise.nil, ?_⟩
    · intro j _
      have := je32_lt o (cd_pos o size j + 16)
      show _ ≤ 2 ^ 32 - 1
      omega
    · intro x
      constructor
      · intro hx
        simp at hx
      · rintro ⟨_, h2, h3⟩
        have := (dirent_hit_iff o size ino 0 x).1 h2
        simp only at h3
        omega
  obtain ⟨fuel, acc, hrun, hsorted, hmem⟩ :=
    cd_run o size ino (l.length + 1) d0 H _ _ 0 0 [] hinv0 (by omega) (Nat.le_refl _)
  refine ⟨fuel, acc, hrun, ?_, hsorted⟩
  have hnd1 : acc.Nodup := by
    refine hsorted.imp ?_
    intro x y hxy hEq
    rw [hEq] at hxy
    exact Nat.lt_irrefl _ hxy
  have hnd2 : l.Nodup := by
    rw [hl2]
    refine List.Nodup.map_on ?_ (List.nodup_range _)
    intro i hi j hj hij
    have hi2 := List.mem_range.1 hi
    have hj2 := List.mem_range.1 hj
    by_contra hne
    rcases Nat.lt_or_gt_of_ne hne with h | h
    · exact cd_pos_inj o size _ H.tocd_orbit i j h (by omega) hij
    · exact cd_pos_inj o size _ H.tocd_orbit j i h (by omega) hij.symm
  refine (List.perm_ext_iff_of_nodup hnd1 (hnd2.filter _)).2 ?_
  intro x
  rw [hmem x, List.mem_filter]
  constructor
  · rintro ⟨⟨j, hj⟩, h2⟩
    subst hj
    exact ⟨hnodemem j (dirent_hit_at_node o size ino 0 _ h2), h2⟩
  · rintro ⟨hx, h2⟩
    obtain ⟨i, _, hix⟩ := hPmem x hx
    exact ⟨⟨i, hix⟩, h2⟩

set_option maxRecDepth 100000 in
/-- The general statement about `find_raw_inode` applies to the image of
scenario 2: from version 1 the next revision of inode 2 is the node at 76. -/
theorem find_raw_inode_next_revision_example :
    ∃ l, scan_nodes (Mem.ofList hello_img) 152 152 0 = some l ∧
      ∀ k, ∃ r, find_raw_inode (Mem.ofList hello_img) 152 2 1 (l.length + 1 + k) = .ok r ∧
        (r = none ↔ ∀ x ∈ l, inode_hit (Mem.ofList hello_img) 2 1 x = false) ∧
        ∀ m, r = some m → is_next_revision (Mem.ofList hello_img) 2 1 l m := by
  have h : ∀ m, m < 152 → at_node (Mem.ofList hello_img) 152 m = true →
      node_len (Mem.ofList hello_img) m ≠ 0 ∧
      (inode_hit (Mem.ofList hello_img) 2 1 m = true →
        je32_to_cpu (Mem.ofList hello_img) (m + 16) ≠ UINT32_MAX) := by
    decide
  exact find_raw_inode_next_revision (Mem.ofList hello_img) 152 2 1 (by decide)
    (fun m hm => (h m (at_node_lt _ _ _ hm) hm).1)
    (fun m hm => (h m (at_node_lt _ _ _ hm) hm).2)

/-- The general statement about `collectdir` applies to the image of
scenario 3. -/
theorem collectdir_replays_example :
    ∃ fuel acc, collectdir (Mem.ofList scenario3_img) 132 1 [] fuel =
        .ok (replay (Mem.ofList scenario3_img) [] acc) ∧
      acc.Perm ([0, 44, 88].filter (dirent_hit (Mem.ofList scenario3_img) 132 1 0)) ∧
      acc.Pairwise fun x y => je32_to_cpu (Mem.ofList scenario3_img) (x + 16) <
        je32_to_cpu (Mem.ofList scenario3_img) (y + 16) :=
  collectdir_replays (Mem.ofList scenario3_img) 132 1 [] 3 [0, 44, 88] (by decide) (by decide)
    (by decide) (by decide) (by decide) (by decide)

/-! ## The loop bounds of the model are never reached -/

theorem skip_padding_loop_stops (o : Mem) (size fuel : Nat) :
    ∀ n, size - n ≤ fuel →
      ¬ (skip_padding_loop o size fuel n < size ∧
        je16_to_cpu o (skip_padding_loop o size fuel n) ≠ JFFS2_MAGIC_BITMASK) := by
  induction fuel with
  | zero =>
    intro n hn
    simp only [skip_padding_loop]
    omega
  | succ f ih =>
    intro n hn
    simp only [skip_padding_loop]
    split
    · exact ih (n + 4) (by omega)
    · assumption

/-- The padding loop of the model ends where the loop of the source ends: at
the end of the image or at a magic word. -/
theorem skip_padding_stops (o : Mem) (size n : Nat) :
    ¬ (skip_padding o size n < size ∧
      je16_to_cpu o (skip_padding o size n) ≠ JFFS2_MAGIC_BITMASK) :=
  skip_padding_loop_stops o size (size - n) n (Nat.le_refl _)

theorem rtime_body_outpos (data_in : Mem) (s s1 : rtime_state)
    (h : rtime_body data_in s = some s1) : s.outpos < s1.outpos := by
  unfold rtime_body at h
  simp only at h
  split at h
  · injection h with h
    subst h
    simp
  · split at h
    · exact absurd h (by simp)
    · split at h
      · injection h with h
        subst h
        have h2 : ∀ r out p b, (rtime_copy r out p b).2 = p + r := by
          intro r
          induction r with
          | zero => intro out p b; rfl
          | succ r ih =>
            intro out p b
            simp only [rtime_copy]
            rw [ih]
            omega
        simp only [h2]
        omega
      · injection h with h
        subst h
        simp only
        omega

/-- The decompressor of the model never runs out of passes: every pass
advances `outpos`, so `destlen` passes reach `destlen`. -/
theorem rtime_loop_no_timeout (data_in : Mem) (destlen fuel : Nat) :
    ∀ s, destlen - s.outpos ≤ fuel → rtime_loop data_in destlen fuel s ≠ .timeout := by
  induction fuel with
  | zero =>
    intro s hs
    have : ¬ s.outpos < destlen := by omega
    simp [rtime_loop, this]
  | succ f ih =>
    intro s hs
    simp only [rtime_loop]
    split
    · cases hb : rtime_body data_in s with
      | none => simp
      | some s1 =>
        have := rtime_body_outpos data_in s s1 hb
        exact ih s1 (by omega)
    · simp

/-! ## The outcomes of `putblock` -/

theorem rtime_loop_ne_fatal (data_in : Mem) (destlen fuel : Nat) :
    ∀ s, rtime_loop data_in destlen fuel s ≠ .fatal := by
  induction fuel with
  | zero =>
    intro s
    simp only [rtime_loop]
    split <;> simp
  | succ f ih =>
    intro s
    simp only [rtime_loop]
    split
    · cases hb : rtime_body data_in s with
      | none => simp
      | some s1 => exact ih s1
    · simp

/-! ## Path resolution -/

/-- C13: for every image and every starting inode, `resolvepath` on the path
"/" and on the path "/." returns a null dirent and sets the result inode
to 1. -/
theorem resolvepath_root (e : rp_env) (gas ino : Nat) :
    resolvepath e (gas + 1) ino [47] = .ok (none, 1) ∧
    resolvepath e (gas + 1) ino [47, 46] = .ok (none, 1) := by
  constructor
  · simp [resolvepath, resolvepath0, resolvepath0_loop, cstr]
  · simp [resolvepath, resolvepath0, resolvepath0_loop, resolvepath0_body, cstr, component,
      after_slash]

set_option maxRecDepth 100000 in
/-- C17 fails on the code: an empty path component is not skipped but looked
up as a name of length 0.  On the image `tree_img`, whose root holds `foo`, `a`
and `l`, the path "/a" resolves to the dirent of `a` and inode 3, while "//a",
which `main` builds from the argument "/a", ends with a null dirent and
inode 0; so does "/foo//" while "/foo/" resolves to `foo`. -/
theorem resolvepath_empty_component :
    resolvepath (env_of tree_img 7) 18 1 [47, 97] = .ok (some 44, 3) ∧
    resolvepath (env_of tree_img 7) 18 1 [47, 47, 97] = .ok (none, 0) ∧
    resolvepath (env_of tree_img 7) 18 1 [47, 102, 111, 111, 47] = .ok (some 0, 2) ∧
    resolvepath (env_of tree_img 7) 18 1 [47, 102, 111, 111, 47, 47] = .ok (none, 0) := by
  decide

set_option maxRecDepth 100000 in
/-- C18 fails on the code: the length of a path component is passed as
`(uint8_t) strlen(path)`.  On the image `tree_img` the component of 257 bytes
that is `a` followed by 256 bytes `x` is looked up with the length 1 and
matches the stored name `a`: the path resolves to the dirent of `a` and
inode 3, although no dirent has a name of 257 bytes. -/
theorem resolvepath_long_component :
    resolvepath (env_of tree_img 7) 18 1 ([47, 97] ++ List.replicate 256 120) =
      .ok (some 44, 3) ∧
    (direntAt (Mem.ofList tree_img) 44).name = [97] ∧
    (direntAt (Mem.ofList tree_img) 44).nsize = 1 := by
  decide

/-! ## The visitors -/

theorem type_marker_slash (t : Nat) : type_marker t = '/' ↔ t = 4 := by
  unfold type_marker
  split_ifs <;> simp_all

theorem type_marker_space (t : Nat) :
    type_marker t = ' ' ↔ t = 8 ∨ t = 2 ∨ t = 6 ∨ t = 10 := by
  unfold type_marker
  split_ifs <;> simp_all

set_option maxRecDepth 100000 in
/-- C20 fails on the code: `do_extract` decides on the marker `m`, and
`visitdir` gives the marker of a regular file, a space, to symlinks and to
character and block devices as well.  A directory (tag 4) is created and a
fifo, a socket or an unknown tag is skipped with a warning, as the claim says,
but for the symlink `l` of `tree_img` a file is created and the link target "a"
is written to it. -/
theorem do_extract_special_files (uncompress : Mem → Nat → Nat → List Nat) (imagebuf : Mem)
    (imagesize : Nat) (d : dir) (ri : Option Nat) (open_ok : Bool) (buf0 : Mem) (fuel : Nat) :
    (∀ t, type_marker t = '/' ↔ t = 4) ∧
    (∀ t, type_marker t = ' ' ↔ t = 8 ∨ t = 2 ∨ t = 6 ∨ t = 10) ∧
    do_extract uncompress imagebuf imagesize d (type_marker 4) ri open_ok buf0 fuel = .ok .mkdir ∧
    (∀ t, t ≠ 4 → t ≠ 8 → t ≠ 2 → t ≠ 6 → t ≠ 10 →
      do_extract uncompress imagebuf imagesize d (type_marker t) ri open_ok buf0 fuel =
        .ok .skipped) ∧
    visitdir_args (Mem.ofList tree_img) 348 ex_link_l 7 3 = .ok (some (' ', 276, 1)) ∧
    do_extract no_zlib (Mem.ofList tree_img) 348 ex_link_l (type_marker 10) (some 276) true
      (fun _ => 0) 7 = .ok (.file [97]) := by
  refine ⟨type_marker_slash, type_marker_space, ?_, ?_, by decide, by decide⟩
  · simp [do_extract, type_marker]
  · intro t h4 h8 h2 h6 h10
    have h1 : type_marker t ≠ '/' := fun h => h4 ((type_marker_slash t).1 h)
    have h2 : type_marker t ≠ ' ' := fun h => by
      rcases (type_marker_space t).1 h with h | h | h | h <;> contradiction
    simp [do_extract, h1, h2]

theorem and_bit_ne_zero (mode k : Nat) : mode &&& 2 ^ k ≠ 0 ↔ mode.testBit k = true := by
  rw [Nat.and_two_pow]
  cases mode.testBit k <;> simp

theorem mode_char_spec (mode i : Nat) (hi : i < 9) : mode_char mode i = perm_char_spec mode i := by
  have b11 := and_bit_ne_zero mode 11
  have b10 := and_bit_ne_zero mode 10
  have b9 := and_bit_ne_zero mode 9
  have b8 := and_bit_ne_zero mode 8
  have b7 := and_bit_ne_zero mode 7
  have b6 := and_bit_ne_zero mode 6
  have b5 := and_bit_ne_zero mode 5
  have b4 := and_bit_ne_zero mode 4
  have b3 := and_bit_ne_zero mode 3
  have b2 := and_bit_ne_zero mode 2
  have b1 := and_bit_ne_zero mode 1
  have b0 := and_bit_ne_zero mode 0
  norm_num at b11 b10 b9 b8 b7 b6 b5 b4 b3 b2 b1 b0
  interval_cases i <;>
    simp [mode_char, perm_char_spec, SBIT, MBIT, MODE0, MODE1, SMODE0, SMODE1, *]

theorem TYPEINDEX_eq (mode : Nat) : TYPEINDEX mode = mode / 2 ^ 12 % 2 ^ 4 := by
  unfold TYPEINDEX
  rw [Nat.shiftRight_eq_div_pow]
  exact Nat.and_pow_two_sub_one_eq_mod _ 4

theorem TYPECHAR_ne_zero (mode : Nat) : (TYPECHAR mode != Char.ofNat 0) = true := by
  have h : ∀ k, k < 16 →
      (['0', 'p', 'c', 'C', 'd', '?', 'b', 'B', '-', '?', 'l', '?', 's', '?', '?', '?'].getD
        k '?' != Char.ofNat 0) = true := by decide
  have hk : TYPEINDEX mode < 16 := by
    rw [TYPEINDEX_eq]
    exact Nat.mod_lt _ (by decide)
  exact h _ hk

theorem mode_char_ne_zero (mode i : Nat) (hi : i < 9) :
    (mode_char mode i != Char.ofNat 0) = true := by
  unfold mode_char
  interval_cases i <;> (split_ifs <;> decide)

theorem mode_string_eq (mode : Nat) :
    mode_string mode = TYPECHAR mode :: (List.range 9).map (mode_char mode) := by
  have hb : mode_string_buf mode = [TYPECHAR mode, mode_char mode 0, mode_char mode 1,
      mode_char mode 2, mode_char mode 3, mode_char mode 4, mode_char mode 5, mode_char mode 6,
      mode_char mode 7, mode_char mode 8, Char.ofNat 0, Char.ofNat 0] := rfl
  have hr : (List.range 9).map (mode_char mode) = [mode_char mode 0, mode_char mode 1,
      mode_char mode 2, mode_char mode 3, mode_char mode 4, mode_char mode 5, mode_char mode 6,
      mode_char mode 7, mode_char mode 8] := rfl
  rw [mode_string, hb, hr]
  simp only [List.takeWhile_cons, TYPECHAR_ne_zero, mode_char_ne_zero mode _ (by decide : 0 < 9),
    mode_char_ne_zero mode _ (by decide : 1 < 9), mode_char_ne_zero mode _ (by decide : 2 < 9),
    mode_char_ne_zero mode _ (by decide : 3 < 9), mode_char_ne_zero mode _ (by decide : 4 < 9),
    mode_char_ne_zero mode _ (by decide : 5 < 9), mode_char_ne_zero mode _ (by decide : 6 < 9),
    mode_char_ne_zero mode _ (by decide : 7 < 9), mode_char_ne_zero mode _ (by decide : 8 < 9),
    if_true]
  simp

/-- C21: for every mode, `mode_string(mode)` is a string of 10 characters;
its first character is the file-type character selected by bits 12..15 (`-`
regular, `d` directory, `l` symlink, `c` char, `b` block, `p` fifo, `s`
socket); its characters 2..10 are, for the nine permission bits in the order
user/group/other r, w, x, the letter when the bit is set and `-` when it is
clear, except that the execute positions show `s`, `s`, `t` when setuid, setgid
or sticky is set with the execute bit and `S`, `S`, `T` when set without it;
0100644 gives "-rw-r--r--", 040755 gives "drwxr-xr-x" and 0104755 gives
"-rwsr-xr-x". -/
theorem mode_string_format (mode : Nat) :
    (mode_string mode).length = 10 ∧
    (∀ c, type_char_spec (mode / 2 ^ 12 % 2 ^ 4) = some c → (mode_string mode).head? = some c) ∧
    (∀ i, i < 9 → (mode_string mode).getD (i + 1) '?' = perm_char_spec mode i) ∧
    mode_string 0o100644 = ['-', 'r', 'w', '-', 'r', '-', '-', 'r', '-', '-'] ∧
    mode_string 0o40755 = ['d', 'r', 'w', 'x', 'r', '-', 'x', 'r', '-', 'x'] ∧
    mode_string 0o104755 = ['-', 'r', 'w', 's', 'r', '-', 'x', 'r', '-', 'x'] := by
  refine ⟨?_, ?_, ?_, by decide, by decide, by decide⟩
  · rw [mode_string_eq]
    simp
  · intro c hc
    have key : ∀ k, k < 16 → type_char_spec k = none ∨ type_char_spec k = some
        (['0', 'p', 'c', 'C', 'd', '?', 'b', 'B', '-', '?', 'l', '?', 's', '?', '?', '?'].getD
          k '?') := by decide
    rw [mode_string_eq, List.head?_cons, TYPECHAR, TYPEINDEX_eq]
    rcases key (mode / 2 ^ 12 % 2 ^ 4) (Nat.mod_lt _ (by decide)) with h | h
    · rw [h] at hc
      exact absurd hc (by simp)
    · rw [h] at hc
      exact hc
  · intro i hi
    rw [mode_string_eq, List.getD_cons_succ, ← mode_char_spec mode i hi]
    interval_cases i <;> rfl

/-! ## Termination of the dirent sweep, and the terminator of a link target -/

set_option maxRecDepth 100000 in
theorem gap_cycle (fuel : Nat) :
    collectdir_loop (Mem.ofList gap_img) 92 1 fuel (gap_state 92) = .timeout ∧
    collectdir_loop (Mem.ofList gap_img) 92 1 fuel (gap_state 0) = .timeout ∧
    collectdir_loop (Mem.ofList gap_img) 92 1 fuel (gap_state 44) = .timeout := by
  induction fuel with
  | zero => exact ⟨rfl, rfl, rfl⟩
  | succ f ih =>
    have e1 : collectdir_wrap (Mem.ofList gap_img)
        (collectdir_scan (Mem.ofList gap_img) 92 1 (gap_state 92)) = some (gap_state 0) := by
      decide
    have e2 : collectdir_wrap (Mem.ofList gap_img)
        (collectdir_scan (Mem.ofList gap_img) 92 1 (gap_state 0)) = some (gap_state 44) := by
      decide
    have e3 : collectdir_wrap (Mem.ofList gap_img)
        (collectdir_scan (Mem.ofList gap_img) 92 1 (gap_state 44)) = some (gap_state 92) := by
      decide
    have hlt : ∀ n, (gap_state n).vcur < (gap_state n).vmax := by
      intro n
      show 2 < UINT32_MAX
      decide
    refine ⟨?_, ?_, ?_⟩
    · rw [collectdir_loop, e1]
      simp only [hlt, if_true]
      exact ih.2.1
    · rw [collectdir_loop, e2]
      simp only [hlt, if_true]
      exact ih.2.2
    · rw [collectdir_loop, e3]
      simp only [hlt, if_true]
      exact ih.1

set_option maxRecDepth 100000 in
/-- C22 fails on the code: the image `gap_img` is two dirent nodes of parent 1
with nonzero rounded totlen and one padding word between them, and on it the
loop of `collectdir` does not terminate, whatever the number of passes
allowed: `lr` is left at the start of the second node, which the scan reaches
only through the padding loop, so `lr == n` never holds again, `vmax` keeps
its initial value and `vcur >= vmax` never holds.  Without the padding word the
same two nodes are collected in four passes. -/
theorem collectdir_gap_never_returns :
    scan_nodes (Mem.ofList gap_img) 92 92 0 = some [0, 48] ∧
    (∀ m, at_node (Mem.ofList gap_img) 92 m = true → node_len (Mem.ofList gap_img) m ≠ 0) ∧
    je16_to_cpu (Mem.ofList gap_img) 44 ≠ JFFS2_MAGIC_BITMASK ∧
    (∀ fuel, collectdir (Mem.ofList gap_img) 92 1 [] fuel = .timeout) ∧
    collectdir (Mem.ofList (mkDirent 1 1 2 8 [97] ++ mkDirent 1 2 3 8 [98])) 88 1 [] 4 =
      .ok [{ type := 8, nsize := 1, ino := 2, name := [97] },
           { type := 8, nsize := 1, ino := 3, name := [98] }] := by
  have hwf : ∀ m, m < 92 → at_node (Mem.ofList gap_img) 92 m = true →
      node_len (Mem.ofList gap_img) m ≠ 0 := by decide
  refine ⟨by decide, fun m hm => hwf m (at_node_lt _ _ _ hm) hm, by decide, ?_, by decide⟩
  intro fuel
  have e0 : collectdir_wrap (Mem.ofList gap_img)
      (collectdir_scan (Mem.ofList gap_img) 92 1
        { n := 0, lr := 0, mp := none, vmint := UINT32_MAX, vmaxt := 0, vmax := UINT32_MAX,
          vcur := 0, d := [] }) =
      some { n := 44, lr := 0, mp := some 0, vmint := UINT32_MAX, vmaxt := 1, vmax := UINT32_MAX,
             vcur := 1, d := [{ type := 8, nsize := 1, ino := 2, name := [97] }] } := by decide
  have e1 : collectdir_wrap (Mem.ofList gap_img)
      (collectdir_scan (Mem.ofList gap_img) 92 1
        { n := 44, lr := 0, mp := some 0, vmint := UINT32_MAX, vmaxt := 1, vmax := UINT32_MAX,
          vcur := 1, d := [{ type := 8, nsize := 1, ino := 2, name := [97] }] }) =
      some (gap_state 92) := by decide
  have h1 : (1 : Nat) < UINT32_MAX := by decide
  have h2 : (gap_state 92).vcur < (gap_state 92).vmax := by decide
  cases fuel with
  | zero => rfl
  | succ f =>
    rw [collectdir, collectdir_loop, e0]
    simp only [h1, if_true]
    cases f with
    | zero => rfl
    | succ g =>
      rw [collectdir_loop, e1]
      simp only [h2, if_true]
      exact (gap_cycle g).1

/-- The size that `putblock` leaves in `*rsize` when it returns is `isize`,
which is at most the buffer size. -/
theorem putblock_rsize (unc : Mem → Nat → Nat → List Nat) (b : Mem) (bsize rsize : Nat)
    (n : jffs2_raw_inode) (r : Mem × Nat) (h : putblock unc b bsize rsize n = .ok r) :
    r.2 = n.isize ∧ r.2 ≤ bsize := by
  unfold putblock at h
  simp only at h
  by_cases h1 : n.isize > bsize ∨ n.offset + n.dsize > bsize
  · rw [if_pos h1] at h
    exact absurd h (by simp)
  · rw [if_neg h1] at h
    have hb : n.isize ≤ bsize := by omega
    suffices hr : r.2 = n.isize by exact ⟨hr, by omega⟩
    repeat' split at h
    all_goals first
      | (injection h with h; rw [← h])
      | exact absurd h (by simp)

set_option maxRecDepth 100000 in
/-- C23 fails on the code: `putblock` accepts a revision with `isize` up to
the buffer size, bound included, and returns that `isize` as the size.  For the
symlink `l` of `long_link_img`, whose revision has `isize` 1024, it returns the
size 1024 with the 1024-byte buffer, which is not below 1024, and the
terminator of `resolvepath0` goes to `symbuf[1024]`, one byte past the end of
the array: resolving "/l" is undefined behaviour. -/
theorem symlink_terminator_past_end :
    (∀ (unc : Mem → Nat → Nat → List Nat) (b : Mem) (rsize : Nat) (n : jffs2_raw_inode)
      (r : Mem × Nat), putblock unc b 1024 rsize n = .ok r → r.2 = n.isize ∧ r.2 ≤ 1024) ∧
    find_raw_inode (Mem.ofList long_link_img) 116 2 0 3 = .ok (some 44) ∧
    (putblock no_zlib (fun _ => 0xAA) 1024 7 (inodeAt (Mem.ofList long_link_img) 44)).map
      (fun r => r.2) = .ok 1024 ∧
    resolvepath (env_of long_link_img 3) 18 1 [47, 108] = .undefined := by
  refine ⟨fun unc b rsize n r h => putblock_rsize unc b 1024 rsize n r h, by decide, by decide,
    by decide⟩

set_option maxRecDepth 100000 in
/-- Beyond the buffers the program uses, the `short` table of the rtime
decompressor is a second way for `putblock` neither to die nor to return: for a
buffer of 40000 bytes and an rtime revision of 32770 bytes, the offset 32768
stored in the table reads back as -32768, and the next record copies from that
index, before the start of the output. -/
theorem putblock_rtime_short_wraps :
    ¬ putblock_dies 40000 rtime_long_node ∧
    (putblock no_zlib (fun _ => 0) 40000 0 rtime_long_node).map (fun r => r.2) = .undefined := by
  constructor
  · unfold putblock_dies
    decide
  · decide

/-- For an rtime revision that fits the buffer, `putblock` is decided by the
outcome of the decompressor, run on the buffer from `offset` on, and by where
its run ends. -/
theorem putblock_rtime_eq (uncompress : Mem → Nat → Nat → List Nat) (b : Mem)
    (bsize rsize : Nat) (n : jffs2_raw_inode)
    (hfit : ¬ (n.isize > bsize ∨ n.offset + n.dsize > bsize)) (h2 : n.compr = 0x02) :
    ∃ c, (putblock uncompress b bsize rsize n = .fatal ↔
        jffs2_rtime_decompress n.data c n.csize n.dsize = .fatal) ∧
      ∀ s, jffs2_rtime_decompress n.data c n.csize n.dsize = .ok s →
        (n.offset + s.outpos ≤ bsize → ∃ b1, putblock uncompress b bsize rsize n =
          .ok (b1, n.isize)) ∧
        (bsize < n.offset + s.outpos → putblock uncompress b bsize rsize n = .undefined) := by
  refine ⟨fun i => (if rsize < n.isize then bzero b rsize (n.isize - rsize) else b) (n.offset + i),
    ?_, ?_⟩
  · simp only [putblock, hfit, if_false, JFFS2_COMPR_ZLIB, JFFS2_COMPR_NONE, JFFS2_COMPR_ZERO,
      JFFS2_COMPR_RTIME, h2]
    simp only [show ¬ (2 = 6) by decide, show ¬ (2 = 0) by decide, show ¬ (2 = 1) by decide,
      if_false, if_true]
    split
    · split <;> simp [*]
    · simp [*]
    · simp [*]
    · simp [*]
  · intro s hs
    simp only [putblock, hfit, if_false, JFFS2_COMPR_ZLIB, JFFS2_COMPR_NONE, JFFS2_COMPR_ZERO,
      JFFS2_COMPR_RTIME, h2]
    simp only [show ¬ (2 = 6) by decide, show ¬ (2 = 0) by decide, show ¬ (2 = 1) by decide,
      if_false, if_true, hs]
    constructor
    · intro hle
      rw [if_pos hle]
      exact ⟨_, rfl⟩
    · intro hlt
      rw [if_neg (by omega)]

/-- What `putblock` does for every buffer, buffer size, prior result size and
inode revision: it ends in `errmsg_die` if and only if `isize > bsize`, or
`offset + dsize > bsize`, or `compr` is none of the four tags; a revision of
another tag than rtime that does not die returns with the size `isize`; an
rtime revision of at most 32767 bytes that does not die returns with the size
`isize` when the decoded run, as long as the output of the reference decoder,
ends inside the buffer, and is undefined behaviour when it ends past it. -/
theorem putblock_outcomes (uncompress : Mem → Nat → Nat → List Nat) (b : Mem)
    (bsize rsize : Nat) (n : jffs2_raw_inode) :
    (putblock uncompress b bsize rsize n = .fatal ↔ putblock_dies bsize n) ∧
    (¬ putblock_dies bsize n → n.compr ≠ 0x02 →
      ∃ b1, putblock uncompress b bsize rsize n = .ok (b1, n.isize)) ∧
    (¬ putblock_dies bsize n → n.compr = 0x02 → n.dsize ≤ 32767 →
      (n.offset + (rtime_reference n.data n.dsize).length ≤ bsize →
        ∃ b1, putblock uncompress b bsize rsize n = .ok (b1, n.isize)) ∧
      (bsize < n.offset + (rtime_reference n.data n.dsize).length →
        putblock uncompress b bsize rsize n = .undefined)) := by
  unfold putblock_dies
  by_cases hfit : n.isize > bsize ∨ n.offset + n.dsize > bsize
  · have hf : putblock uncompress b bsize rsize n = .fatal := by simp [putblock, hfit]
    exact ⟨⟨fun _ => by tauto, fun _ => hf⟩, fun h => (h (by tauto)).elim,
      fun h => (h (by tauto)).elim⟩
  · have hok : ∀ r : ∃ b1, putblock uncompress b bsize rsize n = .ok (b1, n.isize),
        putblock uncompress b bsize rsize n ≠ .fatal := by
      rintro ⟨b1, h⟩ hf
      rw [h] at hf
      exact absurd hf (by simp)
    by_cases h6 : n.compr = 0x06
    · have e : ∃ b1, putblock uncompress b bsize rsize n = .ok (b1, n.isize) := by
        simp only [putblock, hfit, if_false, JFFS2_COMPR_ZLIB, h6, if_true]
        exact ⟨_, rfl⟩
      exact ⟨⟨fun h => absurd h (hok e), fun h => by tauto⟩, fun _ _ => e,
        fun _ h2 => by rw [h6] at h2; exact absurd h2 (by decide)⟩
    · by_cases h0 : n.compr = 0x00
      · have e : ∃ b1, putblock uncompress b bsize rsize n = .ok (b1, n.isize) := by
          simp only [putblock, hfit, if_false, JFFS2_COMPR_ZLIB, JFFS2_COMPR_NONE, h0, if_true]
          simp
        exact ⟨⟨fun h => absurd h (hok e), fun h => by tauto⟩, fun _ _ => e,
          fun _ h2 => by rw [h0] at h2; exact absurd h2 (by decide)⟩
      · by_cases h1 : n.compr = 0x01
        · have e : ∃ b1, putblock uncompress b bsize rsize n = .ok (b1, n.isize) := by
            simp only [putblock, hfit, if_false, JFFS2_COMPR_ZLIB, JFFS2_COMPR_NONE,
              JFFS2_COMPR_ZERO, h1, if_true]
            simp
          exact ⟨⟨fun h => absurd h (hok e), fun h => by tauto⟩, fun _ _ => e,
            fun _ h2 => by rw [h1] at h2; exact absurd h2 (by decide)⟩
        · by_cases h2 : n.compr = 0x02
          · obtain ⟨c, hfat, hrun⟩ := putblock_rtime_eq uncompress b bsize rsize n hfit h2
            refine ⟨⟨fun h => absurd (hfat.1 h) (rtime_loop_ne_fatal _ _ _ _), fun h => by tauto⟩,
              fun _ hne => absurd h2 hne, ?_⟩
            intro _ _ hd
            have h0s : rtime_sim c
                { cpage_out := c, positions := fun _ => 0, outpos := 0, pos := 0 }
                { out := [], pos := fun _ => 0, inp := 0 } :=
              ⟨rfl, fun _ => rfl, fun _ => Nat.le_refl 0, rfl, fun _ _ => rfl⟩
            obtain ⟨s, hs, hout, _⟩ := rtime_loop_sim n.data c n.dsize hd n.dsize _ _ h0s
              (Nat.sub_le _ _)
            have hs2 : jffs2_rtime_decompress n.data c n.csize n.dsize = .ok s := hs
            have hlen : (rtime_reference n.data n.dsize).length = s.outpos := by
              unfold rtime_reference
              rw [← hout, toList_length]
            rw [hlen]
            exact hrun s hs2
          · have e : putblock uncompress b bsize rsize n = .fatal := by
              simp only [putblock, hfit, if_false, JFFS2_COMPR_ZLIB, JFFS2_COMPR_NONE,
                JFFS2_COMPR_ZERO, JFFS2_COMPR_RTIME, h6, h0, h1, h2]
            exact ⟨⟨fun _ => by tauto, fun _ => e⟩, fun h => (h (by tauto)).elim,
              fun h => (h (by tauto)).elim⟩

set_option maxRecDepth 100000 in
/-- C11 fails on the code: the fatal error comes under exactly the three
conditions of the claim, and a revision with the tag none, zero or zlib that
does not die returns with the size `isize`, but an rtime revision need not
return: one of at most 32767 bytes returns with the size `isize` when the
decoded run ends inside the buffer (as for `rtime_ok_node`) and is undefined
behaviour when it ends past it.  For the 16384-byte buffer of `do_extract` and
the rtime revision `rtime_overrun_node` (`isize` 16384, `offset` 16383, `dsize`
1, one record with five repeats) none of the three conditions holds, and
`putblock` neither dies nor returns: the repeat run of the decompressor has no
bound and stores at the indices 16384 to 16388, past the end of the buffer. -/
theorem putblock_rtime_run_past_buffer :
    (∀ (uncompress : Mem → Nat → Nat → List Nat) (b : Mem) (bsize rsize : Nat)
      (n : jffs2_raw_inode),
      (putblock uncompress b bsize rsize n = .fatal ↔ putblock_dies bsize n) ∧
      (¬ putblock_dies bsize n → n.compr ≠ 0x02 →
        ∃ b1, putblock uncompress b bsize rsize n = .ok (b1, n.isize)) ∧
      (¬ putblock_dies bsize n → n.compr = 0x02 → n.dsize ≤ 32767 →
        (n.offset + (rtime_reference n.data n.dsize).length ≤ bsize →
          ∃ b1, putblock uncompress b bsize rsize n = .ok (b1, n.isize)) ∧
        (bsize < n.offset + (rtime_reference n.data n.dsize).length →
          putblock uncompress b bsize rsize n = .undefined))) ∧
    (putblock no_zlib (fun _ => 0) 16384 0 rtime_ok_node).map
        (fun r => (r.2, Mem.toList r.1 7)) =
      .ok (6, [0x41, 0x42, 0x43, 0x41, 0x42, 0x44, 0]) ∧
    ¬ putblock_dies 16384 rtime_overrun_node ∧
    rtime_overrun_node.offset + (rtime_reference rtime_overrun_node.data 1).length = 16389 ∧
    (putblock no_zlib (fun _ => 0) 16384 0 rtime_overrun_node).map (fun r => r.2) =
      .undefined := by
  refine ⟨fun uncompress b bsize rsize n => putblock_outcomes uncompress b bsize rsize n,
    by decide, ?_, by decide, by decide⟩
  unfold putblock_dies
  decide

end Jffs2
